import Mathlib

/-! Verification development for the goyave validation rules.

Shallow embedding of `src/validation/rules.go`.

* Go values of type `interface{}` are the inductive type `Value`.
* A payload `map[string]interface{}` is an association list `Form`.
* A rule function has the Go signature
  `func(field string, value interface{}, parameters []string, form map[string]interface{}) bool`;
  its embedding returns `Option (Bool × Form)`: `none` is a run-time panic, and
  `some (b, form')` is the returned boolean together with the payload after the call.
* `float64` and `float32` are modelled exactly (`GoFloat`, round to nearest even).
* Functions of the Go standard library and of packages outside `src/` are fields of `Lib`.
* The validator (`parseRule`, `Field.check`, `Rules.check`, `Validate`, ...) is not under
  `src/`; it is modelled from the spec, with the rule registry and the message formatter
  as parameters.
-/

namespace Validation

/-! ## Binary floating point -/

/-- A floating-point datum: NaN, a signed infinity, or the finite number
`(-1)^neg * m * 2^e`. -/
inductive GoFloat where
  | nan
  | inf (neg : Bool)
  | fin (neg : Bool) (m : Nat) (e : Int)
  deriving DecidableEq, Repr

/-- Parameters of a binary format: precision in bits, exponent of the smallest
subnormal, and exponent of the unit in the last place of the largest finite number. -/
structure FloatFormat where
  prec : Nat
  emin : Int
  emax : Int
  deriving DecidableEq, Repr

/-- Go `float64`. -/
def binary64 : FloatFormat := ⟨53, -1074, 971⟩

/-- Go `float32`. -/
def binary32 : FloatFormat := ⟨24, -149, 104⟩

/-- Helper of `bitLen`, structurally recursive on the fuel. -/
def bitLenAux : Nat → Nat → Nat
  | 0, _ => 0
  | fuel + 1, n => if n = 0 then 0 else bitLenAux fuel (n / 2) + 1

/-- Number of binary digits of `n`. -/
def bitLen (n : Nat) : Nat := bitLenAux n n

/-- The integer `m` or `-m`. -/
def signed (neg : Bool) (m : Nat) : Int := if neg then -(m : Int) else (m : Int)

namespace GoFloat

/-- Rounding of the exact value `(-1)^neg * m * 2^e` to the format, to nearest, ties to even. -/
def round (fmt : FloatFormat) (neg : Bool) (m : Nat) (e : Int) : GoFloat :=
  let shift : Int := max ((bitLen m : Int) - (fmt.prec : Int)) (fmt.emin - e)
  if shift ≤ 0 then
    if e ≤ fmt.emax then .fin neg m e
    else
      let m1 := m * 2 ^ (e - fmt.emax).toNat
      if m1 < 2 ^ fmt.prec then .fin neg m1 fmt.emax else .inf neg
  else
    let s := shift.toNat
    let q := m / 2 ^ s
    let r := m % 2 ^ s
    let half := 2 ^ (s - 1)
    let q1 := if half < r ∨ (r = half ∧ q % 2 = 1) then q + 1 else q
    let q2 := if q1 = 2 ^ fmt.prec then q1 / 2 else q1
    let e2 := if q1 = 2 ^ fmt.prec then e + shift + 1 else e + shift
    if e2 ≤ fmt.emax then .fin neg q2 e2 else .inf neg

/-- The float literal `0`. -/
def zero : GoFloat := .fin false 0 0

/-- Conversion of an integer to the format, `float64(n)` or `float32(n)`. -/
def ofInt (fmt : FloatFormat) (n : Int) : GoFloat := round fmt (decide (n < 0)) n.natAbs 0

/-- Signed mantissa of a finite number at the exponent `e`, where `e ≤ e0`. -/
def scaled (neg : Bool) (m : Nat) (e0 e : Int) : Int := signed neg (m * 2 ^ (e0 - e).toNat)

/-- Go `a - b` in the format `fmt`. -/
def sub (fmt : FloatFormat) : GoFloat → GoFloat → GoFloat
  | .nan, _ => .nan
  | _, .nan => .nan
  | .inf s, .inf t => if s = t then .nan else .inf s
  | .inf s, .fin _ _ _ => .inf s
  | .fin _ _ _, .inf t => .inf (!t)
  | .fin s1 m1 e1, .fin s2 m2 e2 =>
    let e := min e1 e2
    let d := scaled s1 m1 e1 e - scaled s2 m2 e2 e
    if d = 0 then .fin (s1 && !s2) 0 0 else round fmt (decide (d < 0)) d.natAbs e

/-- Go `a < b`. -/
def lt : GoFloat → GoFloat → Bool
  | .nan, _ => false
  | _, .nan => false
  | .inf s, .inf t => s && !t
  | .inf s, .fin _ _ _ => s
  | .fin _ _ _, .inf t => !t
  | .fin s1 m1 e1, .fin s2 m2 e2 =>
    decide (scaled s1 m1 e1 (min e1 e2) < scaled s2 m2 e2 (min e1 e2))

/-- Go `a <= b`. -/
def le : GoFloat → GoFloat → Bool
  | .nan, _ => false
  | _, .nan => false
  | .inf s, .inf t => s || !t
  | .inf s, .fin _ _ _ => s
  | .fin _ _ _, .inf t => !t
  | .fin s1 m1 e1, .fin s2 m2 e2 =>
    decide (scaled s1 m1 e1 (min e1 e2) ≤ scaled s2 m2 e2 (min e1 e2))

/-- Go `a > b`. -/
def gt (a b : GoFloat) : Bool := lt b a

/-- Go `a >= b`. -/
def ge (a b : GoFloat) : Bool := le b a

/-- The value of a finite number truncated toward zero; `none` for NaN and infinities. -/
def trunc : GoFloat → Option Int
  | .fin s m e => some (signed s (if 0 ≤ e then m * 2 ^ e.toNat else m / 2 ^ (-e).toNat))
  | _ => none

/-- The finite number has a non-zero fractional part. -/
def hasFraction : GoFloat → Bool
  | .fin _ m e => decide (e < 0 ∧ m % 2 ^ (-e).toNat ≠ 0)
  | _ => false

/-- The datum is a value of the format: NaN, an infinity, or a finite number whose
mantissa and exponent are within the format's range. -/
def isValue (fmt : FloatFormat) : GoFloat → Bool
  | .fin _ m e => decide (m < 2 ^ fmt.prec ∧ fmt.emin ≤ e ∧ e ≤ fmt.emax)
  | _ => true

end GoFloat

/-- Go `int(f)` on a platform whose `int` has 64 bits: truncation toward zero when the
result fits; otherwise the Go specification leaves the result to the implementation,
which is the parameter `ovf`. -/
def intOfFloat (ovf : GoFloat → Int) (f : GoFloat) : Int :=
  match f.trunc with
  | some n => if -2 ^ 63 ≤ n ∧ n < 2 ^ 63 then n else ovf f
  | none => ovf f

/-! ## Values -/

/-- The kinds of `reflect.Kind`. -/
inductive Kind where
  | invalid | bool
  | int | int8 | int16 | int32 | int64
  | uint | uint8 | uint16 | uint32 | uint64 | uintptr
  | float32 | float64 | complex64 | complex128
  | array | chan | func | interface | map | ptr | slice | string | struct | unsafePointer
  deriving DecidableEq, Repr

/-- The method `reflect.Kind.String`. -/
def Kind.String : Kind → String
  | .invalid => "invalid" | .bool => "bool"
  | .int => "int" | .int8 => "int8" | .int16 => "int16" | .int32 => "int32" | .int64 => "int64"
  | .uint => "uint" | .uint8 => "uint8" | .uint16 => "uint16" | .uint32 => "uint32"
  | .uint64 => "uint64" | .uintptr => "uintptr"
  | .float32 => "float32" | .float64 => "float64"
  | .complex64 => "complex64" | .complex128 => "complex128"
  | .array => "array" | .chan => "chan" | .func => "func" | .interface => "interface"
  | .map => "map" | .ptr => "ptr" | .slice => "slice" | .string => "string"
  | .struct => "struct" | .unsafePointer => "unsafe.Pointer"

/-- The signed integer types. -/
inductive IntType where
  | int | int8 | int16 | int32 | int64
  deriving DecidableEq, Repr

/-- The unsigned integer types other than `uintptr`. -/
inductive UintType where
  | uint | uint8 | uint16 | uint32 | uint64
  deriving DecidableEq, Repr

/-- Types whose values the rules never look into. -/
inductive OtherType where
  | complex64 | complex128 | array | chan | func | map | ptr | struct | unsafePointer
  deriving DecidableEq, Repr

/-- A Go value held in an `interface{}`. A slice carries the name of its type as
`reflect.Type.String` prints it (`[]interface {}`, `[]string`, `[]filesystem.File`, ...). -/
inductive Value where
  | nil
  | bool (b : Bool)
  | int (t : IntType) (n : Int)
  | uint (t : UintType) (n : Nat)
  | uintptr (n : Nat)
  | float32 (f : GoFloat)
  | float64 (f : GoFloat)
  | string (s : String)
  | slice (ty : String) (xs : List Value)
  | other (t : OtherType)

mutual
/-- Structural equality test on values. -/
def Value.beq : Value → Value → Bool
  | .nil, .nil => true
  | .bool a, .bool b => a == b
  | .int t a, .int u b => t == u && a == b
  | .uint t a, .uint u b => t == u && a == b
  | .uintptr a, .uintptr b => a == b
  | .float32 a, .float32 b => a == b
  | .float64 a, .float64 b => a == b
  | .string a, .string b => a == b
  | .slice t xs, .slice u ys => t == u && Value.beqList xs ys
  | .other a, .other b => a == b
  | _, _ => false
/-- Structural equality test on lists of values. -/
def Value.beqList : List Value → List Value → Bool
  | [], [] => true
  | x :: xs, y :: ys => Value.beq x y && Value.beqList xs ys
  | _, _ => false
end

mutual
theorem Value.beq_iff : ∀ (a b : Value), Value.beq a b = true ↔ a = b
  | .nil, b => by cases b <;> simp [Value.beq]
  | .bool x, b => by cases b <;> simp [Value.beq]
  | .int t x, b => by cases b <;> simp [Value.beq]
  | .uint t x, b => by cases b <;> simp [Value.beq]
  | .uintptr x, b => by cases b <;> simp [Value.beq]
  | .float32 x, b => by cases b <;> simp [Value.beq]
  | .float64 x, b => by cases b <;> simp [Value.beq]
  | .string x, b => by cases b <;> simp [Value.beq]
  | .other x, b => by cases b <;> simp [Value.beq]
  | .slice t xs, b => by
    cases b <;> simp [Value.beq]
    rename_i u ys
    intro _
    exact Value.beqList_iff xs ys
theorem Value.beqList_iff : ∀ (a b : List Value), Value.beqList a b = true ↔ a = b
  | [], [] => by simp [Value.beqList]
  | [], _ :: _ => by simp [Value.beqList]
  | _ :: _, [] => by simp [Value.beqList]
  | x :: xs, y :: ys => by
    simp [Value.beqList, Value.beq_iff x y, Value.beqList_iff xs ys]
end

instance : DecidableEq Value := fun a b => decidable_of_iff _ (Value.beq_iff a b)

/-- The kind `reflect.ValueOf(value).Kind()`; the nil interface has the kind `invalid`. -/
def Value.kind : Value → Kind
  | .nil => .invalid
  | .bool _ => .bool
  | .int .int _ => .int
  | .int .int8 _ => .int8
  | .int .int16 _ => .int16
  | .int .int32 _ => .int32
  | .int .int64 _ => .int64
  | .uint .uint _ => .uint
  | .uint .uint8 _ => .uint8
  | .uint .uint16 _ => .uint16
  | .uint .uint32 _ => .uint32
  | .uint .uint64 _ => .uint64
  | .uintptr _ => .uintptr
  | .float32 _ => .float32
  | .float64 _ => .float64
  | .string _ => .string
  | .slice _ _ => .slice
  | .other .complex64 => .complex64
  | .other .complex128 => .complex128
  | .other .array => .array
  | .other .chan => .chan
  | .other .func => .func
  | .other .map => .map
  | .other .ptr => .ptr
  | .other .struct => .struct
  | .other .unsafePointer => .unsafePointer

/-- Go `strings.HasPrefix(s, p)`. -/
def startsWith (s p : String) : Bool := p.data.isPrefixOf s.data

/-- Go `len(s)` of a string: its length in bytes. -/
def strLen (s : String) : Nat := s.utf8ByteSize

/-! ## Payloads -/

/-- A payload `map[string]interface{}`, as an association list. -/
abbrev Form := List (String × Value)

/-- The map read `val, ok := form[key]`: `some val` when `ok`, `none` otherwise. -/
def Form.get : Form → String → Option Value
  | [], _ => none
  | (k, v) :: rest, key => if k = key then some v else Form.get rest key

/-- The map write `form[key] = v`. -/
def Form.set : Form → String → Value → Form
  | [], key, v => [(key, v)]
  | (k, w) :: rest, key, v =>
    if k = key then (key, v) :: rest else (k, w) :: Form.set rest key v

/-! ## Functions from outside `src/` -/

/-- The functions that `rules.go` calls and whose code is not part of `src/`. -/
structure Lib where
  /-- The call `strconv.ParseFloat(s, 64)`: `some f` when the error is nil. -/
  parseFloat : String → Option GoFloat
  /-- The call `strconv.Atoi(s)`: `some n` when the error is nil. -/
  atoi : String → Option Int
  /-- The first result of `helpers.ToFloat64(value)`, the coercion of a number to float64. -/
  toFloat64 : Value → GoFloat
  /-- The equality that `helpers.Contains` tests between an element of the slice and the
  value it looks for. -/
  valueEq : Value → Value → Bool
  /-- The implementation-dependent result of `int(f)` when `f` truncated does not fit `int`. -/
  intOverflow : GoFloat → Int

/-- Modelled from the spec: `helpers.Contains`, which is not under src/; the membership
test of the accumulating "seen" list of `distinct` (spec §4.5). -/
def Contains (lib : Lib) (found : List Value) (v : Value) : Bool :=
  found.any (fun x => lib.valueEq x v)

/-- Modelled from the spec: `getFieldType`, the TypeClassifier of spec §4.1, which is not
under src/. Numeric is every signed or unsigned integer and floating-point kind except
`uintptr`; a slice is a file when it is a slice of file handles and an array otherwise;
bool, nil, struct (dates) and anything else is unsupported. -/
def getFieldType (value : Value) : String :=
  match value with
  | .int _ _ => "numeric"
  | .uint _ _ => "numeric"
  | .float32 _ => "numeric"
  | .float64 _ => "numeric"
  | .string _ => "string"
  | .slice ty _ => if ty = "[]filesystem.File" then "file" else "array"
  | _ => "unsupported"

/-- The function type that `rules.go` declares as `Rule` (the spec's RuleFunction; the
name `Rule` is kept for the structure of a parsed rule): `none` is a panic,
`some (b, form1)` the result `b` and the payload after the call. -/
abbrev RuleFunction := String → Value → List String → Form → Option (Bool × Form)

/-! ## The rules of `rules.go` -/

/-- Embedding of `validateRequired`. -/
def validateRequired : RuleFunction := fun field _value _parameters form =>
  match Form.get form field with
  | some val =>
    if val = Value.nil then some (false, form)
    else
      match val with
      | .string str => if str = "" then some (false, form) else some (true, form)
      | _ => some (true, form)
  | none => some (false, form)

/-- The type assertion `value.(string)`, which panics on another type. -/
def assertString : Value → Option String
  | .string s => some s
  | _ => none

/-- The call `reflect.ValueOf(value).Len()` on a value classified as an array. -/
def reflectLen : Value → Option Nat
  | .slice _ xs => some xs.length
  | _ => none

/-- Embedding of `validateMin`. -/
def validateMin (lib : Lib) : RuleFunction := fun _field value parameters form =>
  match parameters.get? 0 with
  | none => none
  | some p0 =>
    match lib.parseFloat p0 with
    | none => none
    | some min =>
      if getFieldType value = "numeric" then
        some (GoFloat.ge (lib.toFloat64 value) min, form)
      else if getFieldType value = "string" then
        (assertString value).map
          (fun s => (decide ((strLen s : Int) ≥ intOfFloat lib.intOverflow min), form))
      else if getFieldType value = "array" then
        (reflectLen value).map
          (fun n => (decide ((n : Int) ≥ intOfFloat lib.intOverflow min), form))
      else if getFieldType value = "file" then some (false, form)
      else some (true, form)

/-- Embedding of `validateMax`. -/
def validateMax (lib : Lib) : RuleFunction := fun _field value parameters form =>
  match parameters.get? 0 with
  | none => none
  | some p0 =>
    match lib.parseFloat p0 with
    | none => none
    | some max =>
      if getFieldType value = "numeric" then
        some (GoFloat.le (lib.toFloat64 value) max, form)
      else if getFieldType value = "string" then
        (assertString value).map
          (fun s => (decide ((strLen s : Int) ≤ intOfFloat lib.intOverflow max), form))
      else if getFieldType value = "array" then
        (reflectLen value).map
          (fun n => (decide ((n : Int) ≤ intOfFloat lib.intOverflow max), form))
      else if getFieldType value = "file" then some (false, form)
      else some (true, form)

/-- Embedding of `validateBetween`. Both parameters are read and parsed before either
error is examined. -/
def validateBetween (lib : Lib) : RuleFunction := fun _field value parameters form =>
  match parameters.get? 0, parameters.get? 1 with
  | some p0, some p1 =>
    match lib.parseFloat p0, lib.parseFloat p1 with
    | some min, some max =>
      if getFieldType value = "numeric" then
        some (GoFloat.ge (lib.toFloat64 value) min && GoFloat.le (lib.toFloat64 value) max, form)
      else if getFieldType value = "string" then
        (assertString value).map
          (fun s => (decide ((strLen s : Int) ≥ intOfFloat lib.intOverflow min)
            && decide ((strLen s : Int) ≤ intOfFloat lib.intOverflow max), form))
      else if getFieldType value = "array" then
        (reflectLen value).map
          (fun n => (decide ((n : Int) ≥ intOfFloat lib.intOverflow min)
            && decide ((n : Int) ≤ intOfFloat lib.intOverflow max), form))
      else if getFieldType value = "file" then some (false, form)
      else some (true, form)
    | _, _ => none
  | _, _ => none

/-- The common body of the four cross-field rules `validateGreaterThan`,
`validateGreaterThanEqual`, `validateLowerThan` and `validateLowerThanEqual`, which differ
only in the comparison operator: `cmpF` on floats and `cmpN` on lengths. -/
def compareFields (lib : Lib) (cmpF : GoFloat → GoFloat → Bool) (cmpN : Nat → Nat → Bool) :
    RuleFunction := fun _field value parameters form =>
  match parameters.get? 0 with
  | none => none
  | some p0 =>
    match Form.get form p0 with
    | none => some (false, form)
    | some compared =>
      if getFieldType value ≠ getFieldType compared then some (false, form)
      else if getFieldType value = "numeric" then
        some (cmpF (lib.toFloat64 value) (lib.toFloat64 compared), form)
      else if getFieldType value = "string" then
        match assertString value, assertString compared with
        | some a, some b => some (cmpN (strLen a) (strLen b), form)
        | _, _ => none
      else if getFieldType value = "array" then
        match reflectLen value, reflectLen compared with
        | some a, some b => some (cmpN a b, form)
        | _, _ => none
      else if getFieldType value = "file" then some (false, form)
      else some (false, form)

/-- Embedding of `validateGreaterThan`. -/
def validateGreaterThan (lib : Lib) : RuleFunction :=
  compareFields lib GoFloat.gt (fun a b => decide (a > b))

/-- Embedding of `validateGreaterThanEqual`. -/
def validateGreaterThanEqual (lib : Lib) : RuleFunction :=
  compareFields lib GoFloat.ge (fun a b => decide (a ≥ b))

/-- Embedding of `validateLowerThan`. -/
def validateLowerThan (lib : Lib) : RuleFunction :=
  compareFields lib GoFloat.lt (fun a b => decide (a < b))

/-- Embedding of `validateLowerThanEqual`. -/
def validateLowerThanEqual (lib : Lib) : RuleFunction :=
  compareFields lib GoFloat.le (fun a b => decide (a ≤ b))

/-- Embedding of `validateNumeric`. -/
def validateNumeric (lib : Lib) : RuleFunction := fun field value _parameters form =>
  let kind := value.kind.String
  if startsWith kind "int" ∨ (startsWith kind "uint" ∧ kind ≠ "uintptr")
      ∨ startsWith kind "float" then
    some (true, form)
  else if kind = "string" then
    match assertString value with
    | none => none
    | some s =>
      match lib.parseFloat s with
      | some floatVal => some (true, Form.set form field (.float64 floatVal))
      | none => some (false, form)
  else some (false, form)

/-- The type assertion `val, _ := value.(float64)`, which yields zero on another type. -/
def assertFloat64 : Value → GoFloat
  | .float64 f => f
  | _ => GoFloat.zero

/-- The type assertion `val, _ := value.(float32)`, which yields zero on another type. -/
def assertFloat32 : Value → GoFloat
  | .float32 f => f
  | _ => GoFloat.zero

/-- Embedding of `validateInteger`. -/
def validateInteger (lib : Lib) : RuleFunction := fun field value _parameters form =>
  let kind := value.kind.String
  if startsWith kind "int" ∨ (startsWith kind "uint" ∧ kind ≠ "uintptr") then
    some (true, form)
  else if startsWith kind "float" then
    if kind = "float64" then
      let val := assertFloat64 value
      if GoFloat.gt
          (GoFloat.sub binary64 val (GoFloat.ofInt binary64 (intOfFloat lib.intOverflow val)))
          GoFloat.zero then
        some (false, form)
      else
        some (true, Form.set form field (.int .int (intOfFloat lib.intOverflow val)))
    else
      let val := assertFloat32 value
      if GoFloat.gt
          (GoFloat.sub binary32 val (GoFloat.ofInt binary32 (intOfFloat lib.intOverflow val)))
          GoFloat.zero then
        some (false, form)
      else
        some (true, Form.set form field (.int .int (intOfFloat lib.intOverflow val)))
  else if kind = "string" then
    match assertString value with
    | none => none
    | some s =>
      match lib.atoi s with
      | some intVal => some (true, Form.set form field (.int .int intVal))
      | none => some (false, form)
  else some (false, form)

/-- Embedding of `validateString`. -/
def validateString : RuleFunction := fun _field value _parameters form =>
  some ((assertString value).isSome, form)

/-- Embedding of `validateArray`. -/
def validateArray : RuleFunction := fun _field value _parameters form =>
  some (decide (getFieldType value = "array"), form)

/-- The loop of `validateDistinct` over the elements not yet visited: `found` is the
list of the elements already seen, in order. -/
def distinctLoop (lib : Lib) : List Value → List Value → Bool
  | _, [] => true
  | found, v :: rest =>
    if Contains lib found v then false else distinctLoop lib (found ++ [v]) rest

/-- The elements `list.Index(i).Interface()` of a value classified as an array. -/
def reflectElems : Value → Option (List Value)
  | .slice _ xs => some xs
  | _ => none

/-- Embedding of `validateDistinct`. -/
def validateDistinct (lib : Lib) : RuleFunction := fun _field value _parameters form =>
  if getFieldType value ≠ "array" then some (false, form)
  else
    match reflectElems value with
    | none => none
    | some xs => some (distinctLoop lib [] xs, form)

/-! ## Rule expressions -/

/-- The structure `Rule` of the validator: a rule name, its parameters and the number of
array levels to descend before the rule applies. `TestParseRule` compares the field
`ArrayDimension` with `uint8` values: it is an unsigned 8-bit integer, held here as a
natural number that `parseRule` keeps below `2 ^ 8`. -/
structure Rule where
  Name : String
  Params : List String
  ArrayDimension : Nat
  deriving DecidableEq, Repr

/-- A character of a rule name, `[A-Za-z_]`. -/
def isNameChar (c : Char) : Bool := c.isAlpha || c == '_'

/-- Modelled from the spec: `parseRule`, whose source is not under src/, after the grammar
of spec §4.2: `token := prefix* name (":" params)?` with `prefix := ">"`, `name` in
`[A-Za-z_]+` and `params := value ("," value)*`. Each prefix adds one to the array
dimension, in the arithmetic of its type `uint8`, that is modulo `2 ^ 8`; a token that
does not follow the grammar is a fatal error, `none`. -/
def parseRule (token : String) : Option Rule :=
  let dimension := (token.data.takeWhile (fun c => c == '>')).length % 2 ^ 8
  let body := token.data.dropWhile (fun c => c == '>')
  let name := body.takeWhile (fun c => c != ':')
  if name = [] ∨ name.all isNameChar = false then none
  else
    match body.dropWhile (fun c => c != ':') with
    | [] => some ⟨String.mk name, [], dimension⟩
    | _ :: params => some ⟨String.mk name, (params.splitOn ',').map String.mk, dimension⟩

/-- The rule token made of `k` prefixes `>`, the name, and, when `params` is `some ps`,
a colon followed by the parameters `ps` separated by commas. -/
def ruleToken (k : Nat) (name : String) (params : Option (List String)) : String :=
  String.mk (List.replicate k '>' ++ name.data ++
    match params with
    | none => []
    | some ps => ':' :: [','].intercalate (ps.map String.data))

/-! ## The validator -/

/-- Modelled from the spec: the structure `RuleDefinition`, whose declaration is not under
src/ (spec §3): the rule function, whether the rule depends on the type of the value, and
whether the rule may carry an array dimension above zero. -/
structure RuleDefinition where
  Function : RuleFunction
  IsTypeDependent : Bool
  IsArrayComparable : Bool

/-- Modelled from the spec: the rule registry `validationRules`, from rule name to
definition, whose declaration is not under src/. Its contents are process-wide state of
the program and a parameter of the embedding. -/
abbrev Registry := List (String × RuleDefinition)

/-- The registry read `validationRules[name]`. -/
def Registry.get : Registry → String → Option RuleDefinition
  | [], _ => none
  | (k, d) :: rest, name => if k = name then some d else Registry.get rest name

/-- Modelled from the spec: the structure `Field`, whose declaration is not under src/
(spec §3). -/
structure Field where
  Rules : List Rule
  isRequired : Bool
  isArray : Bool
  isNullable : Bool
  deriving DecidableEq, Repr

/-- Modelled from the spec: the type `FieldMap`, from field name to field (spec §3). -/
abbrev FieldMap := List (String × Field)

/-- Modelled from the spec: the structure `Rules`, whose declaration is not under src/
(spec §3). -/
structure Rules where
  Fields : FieldMap
  checked : Bool
  deriving DecidableEq, Repr

/-- Modelled from the spec: the type `RuleSet`, from field name to rule expressions
(spec §3). -/
abbrev RuleSet := List (String × List String)

/-- Modelled from the spec: the type `Errors`, from field name to messages (spec §3). -/
abbrev Errors := List (String × List String)

/-- The map read `errors[field]`; a missing key reads as the empty list. -/
def Errors.get : Errors → String → List String
  | [], _ => []
  | (k, msgs) :: rest, field => if k = field then msgs else Errors.get rest field

/-- The statement `errors[field] = append(errors[field], msg)`. -/
def Errors.add : Errors → String → String → Errors
  | [], field, msg => [(field, [msg])]
  | (k, msgs) :: rest, field, msg =>
    if k = field then (k, msgs ++ [msg]) :: rest else (k, msgs) :: Errors.add rest field msg

/-- The statement `delete(form, key)`. -/
def Form.delete : Form → String → Form
  | [], _ => []
  | (k, v) :: rest, key =>
    if k = key then Form.delete rest key else (k, v) :: Form.delete rest key

/-- Modelled from the spec: `Field.check`, which is not under src/, after spec §4.3. Step 1
scans the rules and sets the three flags; steps 2 and 3 are fatal when a rule name is not
registered or when a rule that is not array-comparable carries a dimension above zero.
The result is the field after the call and whether the call returned: `false` is the
fatal error. -/
def Field.check (reg : Registry) (f : Field) : Field × Bool :=
  ({ Rules := f.Rules
     isRequired := f.Rules.any (fun r => r.Name == "required" && r.ArrayDimension == 0)
     isArray := f.Rules.any (fun r => r.Name == "array" && r.ArrayDimension == 0)
     isNullable := f.Rules.any (fun r => r.Name == "nullable") },
   f.Rules.all (fun r =>
     match reg.get r.Name with
     | none => false
     | some d => d.IsArrayComparable || r.ArrayDimension == 0))

/-- Modelled from the spec: `Rules.check`, which is not under src/, after spec §4.3: a
no-op on a checked instance; otherwise `Field.check` on every entry, then the latch
`checked` is set. `none` is the fatal error of a field. -/
def Rules.check (reg : Registry) (r : Rules) : Option Rules :=
  if r.checked then some r
  else if r.Fields.all (fun e => (Field.check reg e.2).2) then
    some ⟨r.Fields.map (fun e => (e.1, (Field.check reg e.2).1)), true⟩
  else none

/-- Modelled from the spec: the part of `RuleSet.parse` that parses the rule expressions
of one field, in order; `none` when one is malformed. -/
def parseRules : List String → Option (List Rule)
  | [] => some []
  | token :: rest =>
    match parseRule token, parseRules rest with
    | some r, some rs => some (r :: rs)
    | _, _ => none

/-- Modelled from the spec: the part of `RuleSet.parse` that parses every entry of a rule
set into an unchecked field. -/
def parseFields : RuleSet → Option FieldMap
  | [] => some []
  | (name, tokens) :: rest =>
    match parseRules tokens, parseFields rest with
    | some rs, some fields => some ((name, ⟨rs, false, false, false⟩) :: fields)
    | _, _ => none

/-- Modelled from the spec: `RuleSet.parse`, which is not under src/, after spec §4.3: a
field per key from the parsed expressions, then `check`. -/
def RuleSet.parse (reg : Registry) (set : RuleSet) : Option Rules :=
  match parseFields set with
  | none => none
  | some fields => Rules.check reg ⟨fields, false⟩

/-- Modelled from the spec: `Rules.AsRules`, which is not under src/: the instance itself,
checked if it was not. -/
def Rules.AsRules (reg : Registry) (r : Rules) : Option Rules := Rules.check reg r

/-- Modelled from the spec: `RuleSet.AsRules`, which is not under src/: the parsed and
checked rule tree. -/
def RuleSet.AsRules (reg : Registry) (set : RuleSet) : Option Rules := RuleSet.parse reg set

/-- Modelled from the spec: the rule source of `Validate` (spec §4.4), a rule tree or a
rule set. -/
inductive Ruler where
  | rules (r : Rules)
  | ruleSet (s : RuleSet)

/-- Modelled from the spec: the method `AsRules` of a rule source (spec §4.3). -/
def Ruler.AsRules (reg : Registry) : Ruler → Option Rules
  | .rules r => Rules.AsRules reg r
  | .ruleSet s => RuleSet.AsRules reg s

/-- The name `reflect.TypeOf(value).String()` of the type of a value. For the kinds whose
type the embedding does not record the name of the kind stands in. -/
def Value.typeName : Value → String
  | .nil => "<nil>"
  | .slice ty _ => ty
  | v => v.kind.String

/-- Modelled from the spec: the part of `validateRuleInArray` that retypes an array whose
elements were replaced by `ys` (spec §4.4.1): the slice of the type of the elements when
they all have one type, else the type `ty` it had. -/
def retype (ty : String) : List Value → String
  | [] => ty
  | y :: rest =>
    if rest.all (fun z => z.typeName == y.typeName) then "[]" ++ y.typeName else ty

/-- Modelled from the spec: the loop of `validateRuleInArray` over the elements of one
array (spec §4.4.1): `step` evaluates an element one level down and yields its verdict and
the element after coercion. The loop stops at the first element that fails. -/
def validateElements (step : Value → Option (Bool × Value)) :
    List Value → Option (Bool × List Value)
  | [] => some (true, [])
  | x :: rest =>
    match step x with
    | none => none
    | some (false, _) => some (false, [])
    | some (true, y) =>
      match validateElements step rest with
      | none => none
      | some (ok, ys) => some (ok, y :: ys)

/-- Modelled from the spec: `validateRuleInArray`, which is not under src/, after spec
§4.4.1. At depth 0 the rule function is applied to the element, in a payload of its own
that maps the field to the element, and the element after coercion is read back. At a
depth above zero the value must be classified as an array, else the call is fatal; every
element is evaluated one level down, in order, and when all pass the array holds the
coerced elements and is retyped. The result is the verdict and the value after the call. -/
def validateRuleInArray (fn : RuleFunction) (fieldName : String) (params : List String) :
    Nat → Value → Option (Bool × Value)
  | 0, value =>
    match fn fieldName value params [(fieldName, value)] with
    | none => none
    | some (ok, tmpData) => some (ok, (Form.get tmpData fieldName).getD Value.nil)
  | depth + 1, value =>
    if getFieldType value ≠ "array" then none
    else
      match value with
      | .slice ty xs =>
        match validateElements (validateRuleInArray fn fieldName params depth) xs with
        | none => none
        | some (false, _) => some (false, value)
        | some (true, ys) => some (true, .slice (retype ty ys) ys)
      | _ => none

/-- Modelled from the spec: the Message Formatter of spec §6, an outside collaborator and
a parameter of the embedding: the message of a rule for a value in a locale. -/
abbrev Formatter := Rule → Value → String → String

/-- Modelled from the spec: the part of `validate`, which is not under src/, that evaluates
one rule of a field against the payload (spec §4.4, steps 4 and 5): the
current value of the field is read again, a rule of dimension zero is applied to it and a
rule of a dimension above zero goes through the array recursion. The result is the message
when the rule fails, and the payload after the call. -/
def validateRule (reg : Registry) (format : Formatter) (language : String)
    (fieldName : String) (rule : Rule) (data : Form) : Option (Option String × Form) :=
  match reg.get rule.Name with
  | none => none
  | some definition =>
    let value := (Form.get data fieldName).getD Value.nil
    if rule.ArrayDimension = 0 then
      match definition.Function fieldName value rule.Params data with
      | none => none
      | some (true, data1) => some (none, data1)
      | some (false, data1) => some (some (format rule value language), data1)
    else
      match validateRuleInArray definition.Function fieldName rule.Params
          rule.ArrayDimension value with
      | none => none
      | some (true, newValue) => some (none, Form.set data fieldName newValue)
      | some (false, _) => some (some (format rule value language), data)

/-- Modelled from the spec: the part of `validate` that evaluates the rules of a field in
declared order (spec §4.4, step 4); every failing rule adds its message to the errors of
the field. -/
def validateRules (reg : Registry) (format : Formatter) (language : String)
    (fieldName : String) : List Rule → Errors → Form → Option (Errors × Form)
  | [], errors, data => some (errors, data)
  | rule :: rest, errors, data =>
    match validateRule reg format language fieldName rule data with
    | none => none
    | some (none, data1) => validateRules reg format language fieldName rest errors data1
    | some (some msg, data1) =>
      validateRules reg format language fieldName rest (Errors.add errors fieldName msg) data1

/-- Modelled from the spec: the message that `validate` records for the violated rule
`required` of a field (spec §4.4, step 2). -/
def requiredMessage (format : Formatter) (language : String) (field : Field) : String :=
  match field.Rules.find? (fun r => r.Name == "required" && r.ArrayDimension == 0) with
  | some rule => format rule Value.nil language
  | none => format ⟨"required", [], 0⟩ Value.nil language

/-- Modelled from the spec: the part of `validate`, which is not under src/, that makes a
single value of an array field a one-element slice. The spec has no such step, and
`TestValidateWithArray` observes it in a request that is not JSON, the only kind of
request for which it is applied here; for a JSON request the value reaches the rules as
it is, as in spec §4.4, step 4. Neither the spec nor the tests tell what `validate` does
with a single value of an array field in a JSON request. -/
def convertArray (isJSON : Bool) (fieldName : String) (field : Field) (data : Form) : Form :=
  match Form.get data fieldName with
  | none => data
  | some value =>
    if !isJSON ∧ field.isArray = true ∧ value.kind ≠ Kind.slice then
      Form.set data fieldName (.slice ("[]" ++ value.typeName) [value])
    else data

/-- Modelled from the spec: the part of `validate`, which is not under src/, that evaluates
one field (spec §4.4, steps 1 to 5). An absent field is an error when
required and is skipped otherwise. A nil value is left alone when the field is nullable;
otherwise the entry is removed from the payload, as `TestValidate` observes, which is a
violation of `required` when the field is required. Any other value goes through the rules
of the field. -/
def validateField (reg : Registry) (format : Formatter) (isJSON : Bool) (language : String)
    (fieldName : String) (field : Field) (errors : Errors) (data : Form) :
    Option (Errors × Form) :=
  match Form.get data fieldName with
  | none =>
    if field.isRequired then
      some (Errors.add errors fieldName (requiredMessage format language field), data)
    else some (errors, data)
  | some value =>
    if value = Value.nil then
      if field.isNullable then some (errors, data)
      else if field.isRequired then
        some (Errors.add errors fieldName (requiredMessage format language field),
          Form.delete data fieldName)
      else some (errors, Form.delete data fieldName)
    else
      validateRules reg format language fieldName field.Rules errors
        (convertArray isJSON fieldName field data)

/-- Modelled from the spec: `validate`, which is not under src/: the fields of the checked
rule tree are evaluated one after the other. -/
def validate (reg : Registry) (format : Formatter) (isJSON : Bool) (language : String) :
    FieldMap → Errors → Form → Option (Errors × Form)
  | [], errors, data => some (errors, data)
  | (fieldName, field) :: rest, errors, data =>
    match validateField reg format isJSON language fieldName field errors data with
    | none => none
    | some (errors1, data1) => validate reg format isJSON language rest errors1 data1

/-- Modelled from the spec: `Validate`, which is not under src/, after spec §4.4. The
payload `none` is the nil map. The result is the errors and the payload after the call;
`none` is a fatal error. -/
def Validate (reg : Registry) (format : Formatter) (data : Option Form) (rules : Ruler)
    (isJSON : Bool) (language : String) : Option (Errors × Option Form) :=
  match data with
  | none =>
    some ([("error", [if isJSON then "Malformed JSON" else "Malformed request"])], none)
  | some form =>
    match rules.AsRules reg with
    | none => none
    | some checked =>
      match validate reg format isJSON language checked.Fields [] form with
      | none => none
      | some (errors, form1) => some (errors, some form1)

/-! ## Reference notions used in the statements -/

/-- The rational value of a finite float; `none` for NaN and infinities. -/
def GoFloat.toRat : GoFloat → Option ℚ
  | .fin s m e => some ((signed s m : ℚ) * (2 : ℚ) ^ e)
  | _ => none

/-- Truncation of a rational toward zero. -/
def truncTowardZero (q : ℚ) : Int := if 0 ≤ q then ⌊q⌋ else ⌈q⌉

/-- The rule function changes at most the entry of the payload under the field it is
called for. -/
def RuleFunction.framed (fn : RuleFunction) : Prop :=
  ∀ field value params form b form1, fn field value params form = some (b, form1) →
    ∀ key, key ≠ field → Form.get form1 key = Form.get form key

/-- Every registered rule function changes at most the entry of the payload under the
field it is called for. -/
def Registry.framed (reg : Registry) : Prop :=
  ∀ name d, reg.get name = some d → RuleFunction.framed d.Function

/-- The fields of a rule source before the check: those of the rule tree, or the parsed
expressions of the rule set. -/
def Ruler.fields : Ruler → Option FieldMap
  | .rules r => some r.Fields
  | .ruleSet s => parseFields s

/-- The rule source has not been checked yet: a rule set, or a rule tree whose latch is
not set. -/
def Ruler.unchecked : Ruler → Bool
  | .rules r => !r.checked
  | .ruleSet _ => true

/-- Go `a == b` on floats. -/
def GoFloat.eq (a b : GoFloat) : Bool := GoFloat.le a b && GoFloat.le b a

/-- Go `==` between two interface values holding nil, booleans, numbers or strings. -/
def goEq : Value → Value → Bool
  | .nil, .nil => true
  | .bool a, .bool b => a == b
  | .int t a, .int u b => t == u && a == b
  | .uint t a, .uint u b => t == u && a == b
  | .uintptr a, .uintptr b => a == b
  | .float32 a, .float32 b => GoFloat.eq a b
  | .float64 a, .float64 b => GoFloat.eq a b
  | .string a, .string b => a == b
  | _, _ => false

/-- A sample of the outside functions, on which the rules are run on concrete inputs.
`parseFloat` and `atoi` list the results of `strconv.ParseFloat` and `strconv.Atoi` on a
few decimal strings (2.9 is the float64 `0x4007333333333333`) and `intOverflow` is the
result of an out-of-range conversion on amd64, the smallest 64-bit integer. -/
def exampleLib : Lib where
  parseFloat := fun s =>
    if s = "3" then some (.fin false 3 0)
    else if s = "5" then some (.fin false 5 0)
    else if s = "0.5" then some (.fin false 1 (-1))
    else if s = "2.9" then some (.fin false 6530219459687219 (-51))
    else if s = "1e19" then some (.fin false 19073486328125 19)
    else none
  atoi := fun s =>
    if s = "3" then some 3 else if s = "42" then some 42 else none
  toFloat64 := fun v =>
    match v with
    | .int _ n => GoFloat.ofInt binary64 n
    | .uint _ n => GoFloat.ofInt binary64 n
    | .float64 f => f
    | .float32 f => f
    | _ => GoFloat.zero
  valueEq := goEq
  intOverflow := fun _ => -2 ^ 63

/-! ## A sample registry -/

/-- A stand-in for the function of a rule whose code is not under src/: it accepts every
value. -/
def acceptAll : RuleFunction := fun _field _value _parameters form => some (true, form)

/-- A stand-in for the function of a rule whose code is not under src/: it rejects every
value. -/
def rejectAll : RuleFunction := fun _field _value _parameters form => some (false, form)

/-- A sample of the registry, on which the validator is run on concrete inputs: the rules
of `rules.go` over `exampleLib`, `nullable`, the rules that the tests name as prohibited
in arrays, not array-comparable, and `uuid`, which rejects every value. -/
def sampleRegistry : Registry :=
  [("required", ⟨validateRequired, false, true⟩),
   ("nullable", ⟨acceptAll, false, true⟩),
   ("numeric", ⟨validateNumeric exampleLib, false, true⟩),
   ("integer", ⟨validateInteger exampleLib, false, true⟩),
   ("string", ⟨validateString, false, true⟩),
   ("array", ⟨validateArray, false, true⟩),
   ("distinct", ⟨validateDistinct exampleLib, false, true⟩),
   ("min", ⟨validateMin exampleLib, true, true⟩),
   ("max", ⟨validateMax exampleLib, true, true⟩),
   ("between", ⟨validateBetween exampleLib, true, true⟩),
   ("greater_than", ⟨validateGreaterThan exampleLib, true, true⟩),
   ("greater_than_equal", ⟨validateGreaterThanEqual exampleLib, true, true⟩),
   ("lower_than", ⟨validateLowerThan exampleLib, true, true⟩),
   ("lower_than_equal", ⟨validateLowerThanEqual exampleLib, true, true⟩),
   ("uuid", ⟨rejectAll, false, true⟩),
   ("confirmed", ⟨acceptAll, false, false⟩),
   ("file", ⟨acceptAll, false, false⟩),
   ("mime", ⟨acceptAll, false, false⟩),
   ("image", ⟨acceptAll, false, false⟩),
   ("extension", ⟨acceptAll, false, false⟩),
   ("count", ⟨acceptAll, false, false⟩),
   ("count_min", ⟨acceptAll, false, false⟩),
   ("count_max", ⟨acceptAll, false, false⟩),
   ("count_between", ⟨acceptAll, false, false⟩)]

/-- A sample formatter: the message is the name of the rule. -/
def sampleFormat : Formatter := fun rule _value _language => rule.Name

/-! ## Supporting lemmas -/

/-- Reading a key just written yields the written value. -/
theorem Form.get_set_same (form : Form) (key : String) (v : Value) :
    Form.get (Form.set form key v) key = some v := by
  induction form with
  | nil => simp [Form.set, Form.get]
  | cons hd tl ih =>
    obtain ⟨k, w⟩ := hd
    by_cases hk : k = key
    · simp [Form.set, Form.get, hk]
    · simp [Form.set, Form.get, hk, ih]

/-- Writing a key leaves the reading of every other key as it was. -/
theorem Form.get_set_other (form : Form) (key key1 : String) (v : Value) (h : key1 ≠ key) :
    Form.get (Form.set form key v) key1 = Form.get form key1 := by
  induction form with
  | nil => simp [Form.set, Form.get, Ne.symm h]
  | cons hd tl ih =>
    obtain ⟨k, w⟩ := hd
    by_cases hk : k = key
    · subst hk
      simp [Form.set, Form.get, Ne.symm h]
    · by_cases hk1 : k = key1
      · subst hk1
        simp [Form.set, Form.get, hk]
      · simp [Form.set, Form.get, hk, hk1, ih]

/-- Truncation of a non-negative dyadic rational, computed on the mantissa. -/
theorem truncTowardZero_nat_mul_zpow (m : Nat) (e : Int) :
    truncTowardZero ((m : ℚ) * (2 : ℚ) ^ e)
      = ((if 0 ≤ e then m * 2 ^ e.toNat else m / 2 ^ (-e).toNat : Nat) : Int) := by
  have hnn : (0 : ℚ) ≤ (m : ℚ) * (2 : ℚ) ^ e := by positivity
  unfold truncTowardZero
  rw [if_pos hnn]
  by_cases he : 0 ≤ e
  · obtain ⟨k, rfl⟩ := Int.eq_ofNat_of_zero_le he
    simp only [he, if_true, Int.toNat_ofNat, zpow_natCast]
    have : ((m : ℚ) * (2 : ℚ) ^ k) = ((m * 2 ^ k : Nat) : ℚ) := by push_cast; ring
    rw [this, Int.floor_natCast]
  · have hneg : 0 ≤ -e := by omega
    obtain ⟨k, hk⟩ := Int.eq_ofNat_of_zero_le hneg
    have he2 : e = -(k : Int) := by omega
    subst he2
    simp only [he, if_false, neg_neg, Int.toNat_ofNat, zpow_neg, zpow_natCast]
    have : ((m : ℚ) * ((2 : ℚ) ^ k)⁻¹) = ((m : ℚ) / ((2 ^ k : Nat) : ℚ)) := by
      push_cast; ring
    rw [this, Rat.floor_natCast_div_natCast]
    norm_cast

/-- The function `GoFloat.trunc` is the truncation toward zero of the rational value. -/
theorem GoFloat.trunc_eq (f : GoFloat) : f.trunc = f.toRat.map truncTowardZero := by
  cases f with
  | nan => rfl
  | inf s => rfl
  | fin s m e =>
    simp only [GoFloat.trunc, GoFloat.toRat, Option.map_some']
    congr 1
    cases s with
    | false =>
      simp only [signed, Bool.false_eq_true, if_false, Int.cast_natCast]
      rw [truncTowardZero_nat_mul_zpow]
    | true =>
      simp only [signed, if_true]
      have h1 : (((-(m : Int) : Int) : ℚ) * (2 : ℚ) ^ e) = -((m : ℚ) * (2 : ℚ) ^ e) := by
        push_cast; ring
      rw [h1]
      have hnn : (0 : ℚ) ≤ (m : ℚ) * (2 : ℚ) ^ e := by positivity
      have key := truncTowardZero_nat_mul_zpow m e
      unfold truncTowardZero at key ⊢
      rw [if_pos hnn] at key
      by_cases hz : (0 : ℚ) ≤ -((m : ℚ) * (2 : ℚ) ^ e)
      · have hzero : (m : ℚ) * (2 : ℚ) ^ e = 0 := le_antisymm (by linarith) hnn
        rw [if_pos hz]
        rw [hzero] at key ⊢
        simp at key ⊢
        omega
      · rw [if_neg hz, Int.ceil_neg, key]

/-- A cross-field rule on a subject of unsupported classification returns false. -/
theorem compareFields_unsupported (lib : Lib) (cmpF : GoFloat → GoFloat → Bool)
    (cmpN : Nat → Nat → Bool) (field : String) (value compared : Value) (p0 : String)
    (rest : List String) (form : Form)
    (hv : getFieldType value = "unsupported") (hc : Form.get form p0 = some compared) :
    compareFields lib cmpF cmpN field value (p0 :: rest) form = some (false, form) := by
  by_cases h : getFieldType value = getFieldType compared
  · simp [compareFields, hc, ← h, hv]
  · simp [compareFields, hc, h]

/-- A cross-field rule returns false when the compared field is missing or classified
differently from the subject. -/
theorem compareFields_missing_or_mismatch (lib : Lib) (cmpF : GoFloat → GoFloat → Bool)
    (cmpN : Nat → Nat → Bool) (field : String) (value : Value) (p0 : String)
    (rest : List String) (form : Form)
    (h : Form.get form p0 = none
      ∨ ∃ c, Form.get form p0 = some c ∧ getFieldType c ≠ getFieldType value) :
    compareFields lib cmpF cmpN field value (p0 :: rest) form = some (false, form) := by
  rcases h with h | ⟨c, hc, hne⟩
  · simp [compareFields, h]
  · simp [compareFields, hc, Ne.symm hne]

/-- The loop of `validateDistinct` succeeds exactly when no remaining element equals an
element seen before and no two remaining elements are equal. -/
theorem distinctLoop_iff (lib : Lib) (rest found : List Value) :
    distinctLoop lib found rest = true ↔
      (∀ v ∈ rest, ∀ x ∈ found, lib.valueEq x v = false)
        ∧ rest.Pairwise (fun x v => lib.valueEq x v = false) := by
  induction rest generalizing found with
  | nil => simp [distinctLoop]
  | cons v tl ih =>
    simp only [distinctLoop, Contains]
    by_cases hc : (found.any fun x => lib.valueEq x v) = true
    · simp only [hc, if_true]
      constructor
      · intro h; cases h
      · rintro ⟨h1, _⟩
        rw [List.any_eq_true] at hc
        obtain ⟨x, hx, hxv⟩ := hc
        have := h1 v (List.mem_cons_self _ _) x hx
        rw [this] at hxv
        cases hxv
    · simp only [hc, Bool.false_eq_true, if_false]
      rw [ih (found ++ [v])]
      have hc2 : ∀ x ∈ found, lib.valueEq x v = false := by
        intro x hx
        cases hxv : lib.valueEq x v with
        | false => rfl
        | true => exact absurd (List.any_eq_true.mpr ⟨x, hx, hxv⟩) hc
      constructor
      · rintro ⟨h1, h2⟩
        refine ⟨?_, ?_⟩
        · intro w hw x hx
          rcases List.mem_cons.mp hw with rfl | hw
          · exact hc2 x hx
          · exact h1 w hw x (List.mem_append_left _ hx)
        · rw [List.pairwise_cons]
          exact ⟨fun w hw => h1 w hw v (List.mem_append_right _ (List.mem_singleton_self v)), h2⟩
      · rintro ⟨h1, h2⟩
        rw [List.pairwise_cons] at h2
        refine ⟨?_, h2.2⟩
        intro w hw x hx
        rcases List.mem_append.mp hx with hx | hx
        · exact h1 w (List.mem_cons_of_mem _ hw) x hx
        · rw [List.mem_singleton] at hx
          subst hx
          exact h2.1 w hw

/-- Splitting the leading `>` marks off a list whose first character is not `>`. -/
theorem takeWhile_prefix_marks (k : Nat) (l : List Char)
    (h : ∀ c, l.head? = some c → c ≠ '>') :
    (List.replicate k '>' ++ l).takeWhile (fun c => c == '>') = List.replicate k '>'
    ∧ (List.replicate k '>' ++ l).dropWhile (fun c => c == '>') = l := by
  induction k with
  | zero =>
    cases l with
    | nil => simp
    | cons a t =>
      have := h a rfl
      simp [List.takeWhile_cons, List.dropWhile_cons, this]
  | succ n ih =>
    simp [List.replicate_succ, List.takeWhile_cons, List.dropWhile_cons, ih.1, ih.2]

/-- Splitting a list at its first colon, when the part before has no colon. -/
theorem takeWhile_name (name rest : List Char) (h : ∀ c ∈ name, c ≠ ':')
    (hr : ∀ c, rest.head? = some c → c = ':') :
    (name ++ rest).takeWhile (fun c => c != ':') = name
    ∧ (name ++ rest).dropWhile (fun c => c != ':') = rest := by
  induction name with
  | nil =>
    cases rest with
    | nil => simp
    | cons a t =>
      have := hr a rfl
      simp [List.takeWhile_cons, List.dropWhile_cons, this]
  | cons a t ih =>
    have ha : a ≠ ':' := h a (List.mem_cons_self _ _)
    have := ih (fun c hc => h c (List.mem_cons_of_mem _ hc))
    simp [List.takeWhile_cons, List.dropWhile_cons, ha, this.1, this.2]

/-- A name character is none of `>`, `:` and `,`. -/
theorem isNameChar_ne (c : Char) (h : isNameChar c = true) :
    c ≠ '>' ∧ c ≠ ':' ∧ c ≠ ',' := by
  refine ⟨?_, ?_, ?_⟩ <;> (intro hc; subst hc; revert h; decide)

/-- A number below `2 ^ p` has at most `p` binary digits, for any fuel. -/
theorem bitLenAux_le (fuel : Nat) : ∀ (n p : Nat), n < 2 ^ p → bitLenAux fuel n ≤ p := by
  induction fuel with
  | zero => intro n p _; simp [bitLenAux]
  | succ f ih =>
    intro n p h
    simp only [bitLenAux]
    split
    · exact Nat.zero_le _
    · rename_i hn
      cases p with
      | zero => simp at h; exact absurd h hn
      | succ q =>
        have : n / 2 < 2 ^ q := by
          rw [Nat.div_lt_iff_lt_mul (by decide)]
          rw [pow_succ] at h
          exact h
        have := ih (n / 2) q this
        omega

/-- A number below `2 ^ p` has at most `p` binary digits. -/
theorem bitLen_le (n p : Nat) (h : n < 2 ^ p) : bitLen n ≤ p := bitLenAux_le n n p h

/-- Rounding leaves a number of the format as it is. -/
theorem GoFloat.round_exact (fmt : FloatFormat) (s : Bool) (m : Nat) (e : Int)
    (hm : m < 2 ^ fmt.prec) (he1 : fmt.emin ≤ e) (he2 : e ≤ fmt.emax) :
    GoFloat.round fmt s m e = .fin s m e := by
  have hb := bitLen_le m fmt.prec hm
  have hshift : max ((bitLen m : Int) - (fmt.prec : Int)) (fmt.emin - e) ≤ 0 := by
    apply max_le <;> omega
  simp only [GoFloat.round]
  rw [if_pos hshift, if_pos he2]

/-- The absolute value of a signed mantissa. -/
theorem signed_natAbs (s : Bool) (n : Nat) : (signed s n).natAbs = n := by
  cases s <;> simp [signed]

/-- A non-zero signed mantissa is negative exactly when the sign is set. -/
theorem signed_neg_iff (s : Bool) (n : Nat) (h : 0 < n) : decide (signed s n < 0) = s := by
  cases s <;> simp [signed]
  omega

/-- The sign recomputed from a signed mantissa gives the same signed multiple. -/
theorem signed_sign_irrelevant (s : Bool) (n j : Nat) :
    signed (decide (signed s n < 0)) (n * j) = signed s (n * j) := by
  by_cases hn0 : n = 0
  · subst hn0
    cases s <;> simp [signed]
  · rw [signed_neg_iff s n (Nat.pos_of_ne_zero hn0)]

/-- Difference of two mantissas of the same sign. -/
theorem signed_sub (s : Bool) (a b c : Nat) (h : a = b + c) :
    signed s a - signed s b = signed s c := by
  subst h
  cases s <;> simp [signed]

/-- The test `val - float(int(val)) > 0` of `validateInteger` on a value of the format with a
non-zero fractional part: `int(val)` is the truncation, and the test holds exactly when
the value is positive. -/
theorem GoFloat.fraction_test (fmt : FloatFormat) (ovf : GoFloat → Int) (s : Bool) (m : Nat)
    (e : Int) (hfmt : fmt.emin ≤ 0 ∧ 0 ≤ fmt.emax ∧ fmt.prec ≤ 63)
    (hv : GoFloat.isValue fmt (.fin s m e) = true)
    (hf : GoFloat.hasFraction (.fin s m e) = true) :
    intOfFloat ovf (.fin s m e) = signed s (m / 2 ^ (-e).toNat)
    ∧ GoFloat.gt (GoFloat.sub fmt (.fin s m e)
        (GoFloat.ofInt fmt (intOfFloat ovf (.fin s m e)))) GoFloat.zero = !s := by
  simp only [GoFloat.isValue, decide_eq_true_eq] at hv
  simp only [GoFloat.hasFraction, decide_eq_true_eq] at hf
  obtain ⟨hm, he1, he2⟩ := hv
  obtain ⟨hneg, hr⟩ := hf
  obtain ⟨hemin, hemax, hprec⟩ := hfmt
  have hk : (0 - e).toNat = (-e).toNat := by simp
  generalize hkdef : (-e).toNat = k at hk hr ⊢
  generalize hn : m / 2 ^ k = n
  generalize hrdef : m % 2 ^ k = r at hr
  have hdecomp : m = n * 2 ^ k + r := by
    rw [← hn, ← hrdef]; exact (Nat.div_add_mod' m (2 ^ k)).symm
  have hnlt : n < 2 ^ fmt.prec := by
    rw [← hn]; exact lt_of_le_of_lt (Nat.div_le_self _ _) hm
  have hrlt : r < 2 ^ fmt.prec := by
    rw [← hrdef]; exact lt_of_le_of_lt (Nat.mod_le _ _) hm
  have hrpos : 0 < r := Nat.pos_of_ne_zero hr
  have hpow : (2 : Nat) ^ fmt.prec ≤ 2 ^ 63 := Nat.pow_le_pow_right (by decide) hprec
  have h63 : (n : Int) < 2 ^ 63 := by exact_mod_cast lt_of_lt_of_le hnlt hpow
  have hint : intOfFloat ovf (.fin s m e) = signed s n := by
    have hne : ¬ (0 ≤ e) := by omega
    simp only [intOfFloat, GoFloat.trunc, hne, if_false, hkdef, hn]
    rw [if_pos]
    cases s <;> simp only [signed, if_true, if_false, Bool.false_eq_true] <;> constructor <;> omega
  refine ⟨hint, ?_⟩
  rw [hint]
  have hofInt : GoFloat.ofInt fmt (signed s n) = .fin (decide (signed s n < 0)) n 0 := by
    simp only [GoFloat.ofInt, signed_natAbs]
    exact GoFloat.round_exact fmt _ n 0 hnlt hemin hemax
  rw [hofInt]
  have hmin : min e 0 = e := min_eq_left (by omega)
  have hd : GoFloat.scaled s m e e - GoFloat.scaled (decide (signed s n < 0)) n 0 e
      = signed s r := by
    simp only [GoFloat.scaled, sub_self, Int.toNat_zero, pow_zero, mul_one, hk,
      signed_sign_irrelevant]
    exact signed_sub s m (n * 2 ^ k) r hdecomp
  have hsub : GoFloat.sub fmt (.fin s m e) (.fin (decide (signed s n < 0)) n 0)
      = .fin s r e := by
    simp only [GoFloat.sub, hmin, hd]
    have hne : signed s r ≠ 0 := by cases s <;> simp [signed] <;> omega
    rw [if_neg hne, signed_neg_iff s r hrpos, signed_natAbs]
    exact GoFloat.round_exact fmt s r e hrlt he1 he2
  rw [hsub]
  have hmin0 : min 0 e = e := min_eq_right (by omega)
  simp only [GoFloat.gt, GoFloat.lt, GoFloat.zero, hmin0, GoFloat.scaled, sub_self,
    Int.toNat_zero, pow_zero, mul_one]
  cases s <;> simp [signed]
  omega

/-- On a float64 with a non-zero fractional part `validateInteger` returns false and leaves
the payload as it is when the value is positive, and returns true and writes the
truncation when the value is negative. -/
theorem validateInteger_float64_fraction (lib : Lib) (field : String)
    (parameters : List String) (form : Form) (s : Bool) (m : Nat) (e : Int)
    (hv : GoFloat.isValue binary64 (.fin s m e) = true)
    (hf : GoFloat.hasFraction (.fin s m e) = true) :
    validateInteger lib field (Value.float64 (.fin s m e)) parameters form
      = if s then
          some (true, Form.set form field (Value.int IntType.int (-(m / 2 ^ (-e).toNat : Nat))))
        else some (false, form) := by
  have h := GoFloat.fraction_test binary64 lib.intOverflow s m e (by decide) hv hf
  have hk : validateInteger lib field (Value.float64 (.fin s m e)) parameters form =
      if GoFloat.gt (GoFloat.sub binary64 (.fin s m e)
          (GoFloat.ofInt binary64 (intOfFloat lib.intOverflow (.fin s m e)))) GoFloat.zero then
        some (false, form)
      else some (true, Form.set form field
        (Value.int IntType.int (intOfFloat lib.intOverflow (.fin s m e)))) := rfl
  rw [hk, h.2, h.1]
  cases s <;> simp [signed]

/-- On a float32 with a non-zero fractional part `validateInteger` returns false and leaves
the payload as it is when the value is positive, and returns true and writes the
truncation when the value is negative. -/
theorem validateInteger_float32_fraction (lib : Lib) (field : String)
    (parameters : List String) (form : Form) (s : Bool) (m : Nat) (e : Int)
    (hv : GoFloat.isValue binary32 (.fin s m e) = true)
    (hf : GoFloat.hasFraction (.fin s m e) = true) :
    validateInteger lib field (Value.float32 (.fin s m e)) parameters form
      = if s then
          some (true, Form.set form field (Value.int IntType.int (-(m / 2 ^ (-e).toNat : Nat))))
        else some (false, form) := by
  have h := GoFloat.fraction_test binary32 lib.intOverflow s m e (by decide) hv hf
  have hk : validateInteger lib field (Value.float32 (.fin s m e)) parameters form =
      if GoFloat.gt (GoFloat.sub binary32 (.fin s m e)
          (GoFloat.ofInt binary32 (intOfFloat lib.intOverflow (.fin s m e)))) GoFloat.zero then
        some (false, form)
      else some (true, Form.set form field
        (Value.int IntType.int (intOfFloat lib.intOverflow (.fin s m e)))) := rfl
  rw [hk, h.2, h.1]
  cases s <;> simp [signed]

/-- The part of a token before its first colon is its leading `>` marks followed by the
name that `parseRule` reads. -/
theorem name_of_token (l : List Char) :
    l.takeWhile (fun c => c != ':')
      = l.takeWhile (fun c => c == '>')
        ++ (l.dropWhile (fun c => c == '>')).takeWhile (fun c => c != ':') := by
  induction l with
  | nil => simp
  | cons a t ih =>
    by_cases ha : a = '>'
    · subst ha
      simp [List.takeWhile_cons, List.dropWhile_cons, ih]
    · by_cases hc : a = ':'
      · simp [List.takeWhile_cons, List.dropWhile_cons, ha, hc]
      · simp [List.takeWhile_cons, List.dropWhile_cons, ha, hc]

/-- The two fields of `TestFieldCheck` that pass the check, with their flags. -/
theorem Field_check_examples :
    (Field.check sampleRegistry ⟨[⟨"required", [], 0⟩, ⟨"numeric", [], 0⟩], false, false, false⟩)
      = (⟨[⟨"required", [], 0⟩, ⟨"numeric", [], 0⟩], true, false, false⟩, true)
    ∧ (Field.check sampleRegistry ⟨[⟨"nullable", [], 0⟩, ⟨"array", [], 0⟩], false, false, false⟩)
      = (⟨[⟨"nullable", [], 0⟩, ⟨"array", [], 0⟩], false, true, true⟩, true) := by
  decide

/-- The check of a field is fatal when it holds a rule that is not registered or that is
not array-comparable and carries a dimension above zero. -/
theorem Field.check_fatal_rule (reg : Registry) (f : Field) (r : Rule) (hr : r ∈ f.Rules)
    (h : ∀ d, reg.get r.Name = some d → d.IsArrayComparable = false ∧ 0 < r.ArrayDimension) :
    (Field.check reg f).2 = false := by
  simp only [Field.check, List.all_eq_false]
  refine ⟨r, hr, ?_⟩
  cases hd : reg.get r.Name with
  | none => simp
  | some d =>
    obtain ⟨h1, h2⟩ := h d hd
    have : r.ArrayDimension ≠ 0 := by omega
    simp [h1, this]

/-- The check of an unchecked rule tree is fatal when the check of one of its fields is. -/
theorem Rules.check_fatal_field (reg : Registry) (rules : Rules) (name : String) (f : Field)
    (hc : rules.checked = false) (hf : (name, f) ∈ rules.Fields)
    (h : (Field.check reg f).2 = false) :
    Rules.check reg rules = none := by
  have hall : rules.Fields.all (fun e => (Field.check reg e.2).2) = false := by
    rw [List.all_eq_false]
    exact ⟨(name, f), hf, by simp [h]⟩
  simp [Rules.check, hc, hall]

/-- Every expression of a parsed list yields one of the parsed rules. -/
theorem parseRules_mem (tokens : List String) :
    ∀ rs, parseRules tokens = some rs → ∀ token ∈ tokens, ∃ r ∈ rs, parseRule token = some r := by
  induction tokens with
  | nil => intro rs _ token ht; cases ht
  | cons t rest ih =>
    intro rs h token ht
    simp only [parseRules] at h
    cases hp : parseRule t with
    | none => simp [hp] at h
    | some r =>
      cases hrest : parseRules rest with
      | none => simp [hp, hrest] at h
      | some rs1 =>
        simp only [hp, hrest, Option.some.injEq] at h
        subst h
        rcases List.mem_cons.mp ht with rfl | ht
        · exact ⟨r, List.mem_cons_self _ _, hp⟩
        · obtain ⟨r1, hr1, hp1⟩ := ih rs1 hrest token ht
          exact ⟨r1, List.mem_cons_of_mem _ hr1, hp1⟩

/-- Every entry of a parsed rule set yields the unchecked field of its parsed rules. -/
theorem parseFields_mem (set : RuleSet) :
    ∀ fields, parseFields set = some fields → ∀ name tokens, (name, tokens) ∈ set →
      ∃ rs, parseRules tokens = some rs ∧ (name, (⟨rs, false, false, false⟩ : Field)) ∈ fields := by
  induction set with
  | nil => intro fields _ name tokens hm; cases hm
  | cons e rest ih =>
    obtain ⟨n, ts⟩ := e
    intro fields h name tokens hm
    simp only [parseFields] at h
    cases hp : parseRules ts with
    | none => simp [hp] at h
    | some rs =>
      cases hrest : parseFields rest with
      | none => simp [hp, hrest] at h
      | some fs =>
        simp only [hp, hrest, Option.some.injEq] at h
        subst h
        rcases List.mem_cons.mp hm with heq | hm
        · cases heq
          exact ⟨rs, hp, List.mem_cons_self _ _⟩
        · obtain ⟨rs1, h1, h2⟩ := ih fs hrest name tokens hm
          exact ⟨rs1, h1, List.mem_cons_of_mem _ h2⟩

/-- A deleted key is absent. -/
theorem Form.get_delete_same (form : Form) (key : String) :
    Form.get (Form.delete form key) key = none := by
  induction form with
  | nil => rfl
  | cons hd tl ih =>
    obtain ⟨k, w⟩ := hd
    by_cases hk : k = key
    · simp [Form.delete, hk, ih]
    · simp [Form.delete, hk, Form.get, ih]

/-- Deleting a key leaves the reading of every other key as it was. -/
theorem Form.get_delete_other (form : Form) (key key1 : String) (h : key1 ≠ key) :
    Form.get (Form.delete form key) key1 = Form.get form key1 := by
  induction form with
  | nil => rfl
  | cons hd tl ih =>
    obtain ⟨k, w⟩ := hd
    by_cases hk : k = key
    · subst hk
      simp [Form.delete, Form.get, Ne.symm h, ih]
    · by_cases hk1 : k = key1
      · subst hk1
        simp [Form.delete, hk, Form.get]
      · simp [Form.delete, hk, Form.get, hk1, ih]

/-- Writing under a key the value it already holds leaves the payload as it is. -/
theorem Form.set_get_self (form : Form) (key : String) (v : Value)
    (h : Form.get form key = some v) : Form.set form key v = form := by
  induction form with
  | nil => simp [Form.get] at h
  | cons hd tl ih =>
    obtain ⟨k, w⟩ := hd
    by_cases hk : k = key
    · subst hk
      simp only [Form.get, if_true, Option.some.injEq] at h
      simp [Form.set, h]
    · simp only [Form.get, hk, if_false] at h
      simp [Form.set, hk, ih h]

/-- A message added for a field leaves the messages of every other field as they were. -/
theorem Errors.get_add_other (errors : Errors) (field field1 msg : String)
    (h : field1 ≠ field) :
    Errors.get (Errors.add errors field msg) field1 = Errors.get errors field1 := by
  induction errors with
  | nil => simp [Errors.add, Errors.get, Ne.symm h]
  | cons hd tl ih =>
    obtain ⟨k, msgs⟩ := hd
    by_cases hk : k = field
    · subst hk
      simp [Errors.add, Errors.get, Ne.symm h]
    · by_cases hk1 : k = field1
      · subst hk1
        simp [Errors.add, Errors.get, hk]
      · simp [Errors.add, Errors.get, hk, hk1, ih]

/-- With a framed registry, a rule of a field leaves the entries of the other fields as
they were. -/
theorem validateRule_frame (reg : Registry) (format : Formatter) (language : String)
    (hframe : reg.framed) (name key : String) (hne : key ≠ name) (rule : Rule) (data : Form)
    (msg : Option String) (data1 : Form)
    (h : validateRule reg format language name rule data = some (msg, data1)) :
    Form.get data1 key = Form.get data key := by
  unfold validateRule at h
  cases hd : reg.get rule.Name with
  | none => simp [hd] at h
  | some d =>
    simp only [hd] at h
    by_cases hdim : rule.ArrayDimension = 0
    · simp only [hdim, if_true] at h
      cases hf : d.Function name ((Form.get data name).getD Value.nil) rule.Params data with
      | none => simp [hf] at h
      | some res =>
        obtain ⟨b, form1⟩ := res
        have hfr := hframe rule.Name d hd name _ rule.Params data b form1 hf key hne
        cases b <;> simp only [hf, Option.some.injEq, Prod.mk.injEq] at h <;>
          (obtain ⟨_, h2⟩ := h; subst h2; exact hfr)
    · simp only [hdim, if_false] at h
      cases hv : validateRuleInArray d.Function name rule.Params rule.ArrayDimension
          ((Form.get data name).getD Value.nil) with
      | none => simp [hv] at h
      | some res =>
        obtain ⟨b, v1⟩ := res
        cases b <;> simp only [hv, Option.some.injEq, Prod.mk.injEq] at h <;>
          obtain ⟨_, h2⟩ := h <;> subst h2
        · rfl
        · exact Form.get_set_other data name key v1 hne

/-- With a framed registry, the rules of a field leave the errors and the entries of the
other fields as they were. -/
theorem validateRules_frame (reg : Registry) (format : Formatter) (language : String)
    (hframe : reg.framed) (name key : String) (hne : key ≠ name) (rules : List Rule) :
    ∀ (errors : Errors) (data : Form) (errors1 : Errors) (data1 : Form),
      validateRules reg format language name rules errors data = some (errors1, data1) →
      Errors.get errors1 key = Errors.get errors key ∧ Form.get data1 key = Form.get data key := by
  induction rules with
  | nil =>
    intro errors data errors1 data1 h
    simp only [validateRules, Option.some.injEq, Prod.mk.injEq] at h
    obtain ⟨h1, h2⟩ := h
    subst h1 h2
    exact ⟨rfl, rfl⟩
  | cons rule rest ih =>
    intro errors data errors1 data1 h
    simp only [validateRules] at h
    cases hr : validateRule reg format language name rule data with
    | none => simp [hr] at h
    | some res =>
      obtain ⟨msg, d1⟩ := res
      have hfr := validateRule_frame reg format language hframe name key hne rule data msg d1 hr
      cases msg with
      | none =>
        simp only [hr] at h
        obtain ⟨h1, h2⟩ := ih errors d1 errors1 data1 h
        exact ⟨h1, by rw [h2, hfr]⟩
      | some m =>
        simp only [hr] at h
        obtain ⟨h1, h2⟩ := ih _ d1 errors1 data1 h
        exact ⟨by rw [h1, Errors.get_add_other errors name key m hne], by rw [h2, hfr]⟩

/-- The conversion of a field to an array leaves the entries of the other fields as they
were. -/
theorem convertArray_frame (isJSON : Bool) (name key : String) (hne : key ≠ name)
    (field : Field) (data : Form) :
    Form.get (convertArray isJSON name field data) key = Form.get data key := by
  unfold convertArray
  split
  · rfl
  · split
    · exact Form.get_set_other data name key _ hne
    · rfl

/-- With a framed registry, the evaluation of a field leaves the errors and the entries of
the other fields as they were. -/
theorem validateField_frame (reg : Registry) (format : Formatter) (isJSON : Bool)
    (language : String) (hframe : reg.framed) (name key : String) (hne : key ≠ name)
    (field : Field) (errors : Errors) (data : Form) (errors1 : Errors) (data1 : Form)
    (h : validateField reg format isJSON language name field errors data
      = some (errors1, data1)) :
    Errors.get errors1 key = Errors.get errors key ∧ Form.get data1 key = Form.get data key := by
  unfold validateField at h
  split at h
  · split at h <;> simp only [Option.some.injEq, Prod.mk.injEq] at h <;>
      obtain ⟨h1, h2⟩ := h <;> subst h1 h2
    · exact ⟨Errors.get_add_other errors name key _ hne, rfl⟩
    · exact ⟨rfl, rfl⟩
  · split at h
    · split at h
      · simp only [Option.some.injEq, Prod.mk.injEq] at h
        obtain ⟨h1, h2⟩ := h
        subst h1 h2
        exact ⟨rfl, rfl⟩
      · split at h <;> simp only [Option.some.injEq, Prod.mk.injEq] at h <;>
          obtain ⟨h1, h2⟩ := h <;> subst h1 h2
        · exact ⟨Errors.get_add_other errors name key _ hne,
            Form.get_delete_other data name key hne⟩
        · exact ⟨rfl, Form.get_delete_other data name key hne⟩
    · obtain ⟨h1, h2⟩ := validateRules_frame reg format language hframe name key hne
        field.Rules errors _ errors1 data1 h
      exact ⟨h1, by rw [h2, convertArray_frame isJSON name key hne field data]⟩

/-- A rule function that returns the payload it was given is framed. -/
theorem RuleFunction.framed_of_unchanged (fn : RuleFunction)
    (h : ∀ field value params form b form1, fn field value params form = some (b, form1) →
      form1 = form) : RuleFunction.framed fn := by
  intro field value params form b form1 hf key _
  rw [h field value params form b form1 hf]

/-- The rule `validateRequired` returns the payload it was given. -/
theorem validateRequired_unchanged (field : String) (value : Value) (params : List String)
    (form : Form) (b : Bool) (form1 : Form)
    (h : validateRequired field value params form = some (b, form1)) : form1 = form := by
  unfold validateRequired at h
  repeat' split at h
  all_goals simp_all

/-- A verdict paired with the payload, computed from an optional datum, carries the
payload it was given. -/
theorem map_pair_unchanged {α : Type} (o : Option α) (g : α → Bool) (form : Form) (b : Bool)
    (form1 : Form) (h : o.map (fun a => (g a, form)) = some (b, form1)) : form1 = form := by
  cases o with
  | none => simp at h
  | some a =>
    simp only [Option.map_some', Option.some.injEq, Prod.mk.injEq] at h
    exact h.2.symm

/-- The rule `validateMin` returns the payload it was given. -/
theorem validateMin_unchanged (lib : Lib) (field : String) (value : Value)
    (params : List String) (form : Form) (b : Bool) (form1 : Form)
    (h : validateMin lib field value params form = some (b, form1)) : form1 = form := by
  unfold validateMin at h
  cases params with
  | nil => simp only [List.get?] at h; cases h
  | cons p0 rest =>
    simp only [List.get?] at h
    cases hp : lib.parseFloat p0 with
    | none => simp only [hp] at h; cases h
    | some bound =>
      simp only [hp] at h
      split_ifs at h
      · simp only [Option.some.injEq, Prod.mk.injEq] at h
        exact h.2.symm
      · exact map_pair_unchanged _ _ _ _ _ h
      · exact map_pair_unchanged _ _ _ _ _ h
      · simp only [Option.some.injEq, Prod.mk.injEq] at h
        exact h.2.symm
      · simp only [Option.some.injEq, Prod.mk.injEq] at h
        exact h.2.symm

/-- The rule `validateMax` returns the payload it was given. -/
theorem validateMax_unchanged (lib : Lib) (field : String) (value : Value)
    (params : List String) (form : Form) (b : Bool) (form1 : Form)
    (h : validateMax lib field value params form = some (b, form1)) : form1 = form := by
  unfold validateMax at h
  cases params with
  | nil => simp only [List.get?] at h; cases h
  | cons p0 rest =>
    simp only [List.get?] at h
    cases hp : lib.parseFloat p0 with
    | none => simp only [hp] at h; cases h
    | some bound =>
      simp only [hp] at h
      split_ifs at h
      · simp only [Option.some.injEq, Prod.mk.injEq] at h
        exact h.2.symm
      · exact map_pair_unchanged _ _ _ _ _ h
      · exact map_pair_unchanged _ _ _ _ _ h
      · simp only [Option.some.injEq, Prod.mk.injEq] at h
        exact h.2.symm
      · simp only [Option.some.injEq, Prod.mk.injEq] at h
        exact h.2.symm

/-- The rule `validateBetween` returns the payload it was given. -/
theorem validateBetween_unchanged (lib : Lib) (field : String) (value : Value)
    (params : List String) (form : Form) (b : Bool) (form1 : Form)
    (h : validateBetween lib field value params form = some (b, form1)) : form1 = form := by
  unfold validateBetween at h
  cases params with
  | nil => simp only [List.get?] at h; cases h
  | cons p0 rest =>
    cases rest with
    | nil => simp only [List.get?] at h; cases h
    | cons p1 rest1 =>
      simp only [List.get?] at h
      cases hq0 : lib.parseFloat p0 with
      | none => simp only [hq0] at h; cases h
      | some lo =>
        cases hq1 : lib.parseFloat p1 with
        | none => simp only [hq0, hq1] at h; cases h
        | some hi =>
          simp only [hq0, hq1] at h
          split_ifs at h
          · simp only [Option.some.injEq, Prod.mk.injEq] at h
            exact h.2.symm
          · exact map_pair_unchanged _ _ _ _ _ h
          · exact map_pair_unchanged _ _ _ _ _ h
          · simp only [Option.some.injEq, Prod.mk.injEq] at h
            exact h.2.symm
          · simp only [Option.some.injEq, Prod.mk.injEq] at h
            exact h.2.symm

/-- The four cross-field rules return the payload they were given. -/
theorem compareFields_unchanged (lib : Lib) (cmpF : GoFloat → GoFloat → Bool)
    (cmpN : Nat → Nat → Bool) (field : String) (value : Value)
    (params : List String) (form : Form) (b : Bool) (form1 : Form)
    (h : compareFields lib cmpF cmpN field value params form = some (b, form1)) :
    form1 = form := by
  unfold compareFields at h
  repeat' split at h
  all_goals simp_all

/-- The rule `validateString` returns the payload it was given. -/
theorem validateString_unchanged (field : String) (value : Value) (params : List String)
    (form : Form) (b : Bool) (form1 : Form)
    (h : validateString field value params form = some (b, form1)) : form1 = form := by
  simp only [validateString, Option.some.injEq, Prod.mk.injEq] at h
  exact h.2.symm

/-- The rule `validateArray` returns the payload it was given. -/
theorem validateArray_unchanged (field : String) (value : Value) (params : List String)
    (form : Form) (b : Bool) (form1 : Form)
    (h : validateArray field value params form = some (b, form1)) : form1 = form := by
  simp only [validateArray, Option.some.injEq, Prod.mk.injEq] at h
  exact h.2.symm

/-- The rule `validateDistinct` returns the payload it was given. -/
theorem validateDistinct_unchanged (lib : Lib) (field : String) (value : Value)
    (params : List String) (form : Form) (b : Bool) (form1 : Form)
    (h : validateDistinct lib field value params form = some (b, form1)) : form1 = form := by
  unfold validateDistinct at h
  repeat' split at h
  all_goals simp_all

/-- The rule `validateNumeric` changes at most the entry under its field. -/
theorem validateNumeric_framed (lib : Lib) : RuleFunction.framed (validateNumeric lib) := by
  intro field value params form b form1 h key hne
  unfold validateNumeric at h
  simp only at h
  repeat' split at h
  all_goals simp only [Option.some.injEq, Prod.mk.injEq, reduceCtorEq] at h
  all_goals
    obtain ⟨_, h2⟩ := h
    subst h2
    first | rfl | exact Form.get_set_other form field key _ hne

/-- The rule `validateInteger` changes at most the entry under its field. -/
theorem validateInteger_framed (lib : Lib) : RuleFunction.framed (validateInteger lib) := by
  intro field value params form b form1 h key hne
  unfold validateInteger at h
  simp only at h
  repeat' split at h
  all_goals simp only [Option.some.injEq, Prod.mk.injEq, reduceCtorEq] at h
  all_goals
    obtain ⟨_, h2⟩ := h
    subst h2
    first | rfl | exact Form.get_set_other form field key _ hne

/-- The empty registry is framed. -/
theorem Registry.framed_nil : Registry.framed [] := by
  intro name d h
  simp [Registry.get] at h

/-- A registry is framed when its first rule function and the rest of it are. -/
theorem Registry.framed_cons (name : String) (d : RuleDefinition) (rest : Registry)
    (hd : RuleFunction.framed d.Function) (hrest : Registry.framed rest) :
    Registry.framed ((name, d) :: rest) := by
  intro name1 d1 h
  simp only [Registry.get] at h
  split at h
  · cases h
    exact hd
  · exact hrest name1 d1 h

/-- The stand-in that accepts every value is framed. -/
theorem acceptAll_framed : RuleFunction.framed acceptAll :=
  RuleFunction.framed_of_unchanged _ (fun _ _ _ _ _ _ h => by
    simp only [acceptAll, Option.some.injEq, Prod.mk.injEq] at h
    exact h.2.symm)

/-- The stand-in that rejects every value is framed. -/
theorem rejectAll_framed : RuleFunction.framed rejectAll :=
  RuleFunction.framed_of_unchanged _ (fun _ _ _ _ _ _ h => by
    simp only [rejectAll, Option.some.injEq, Prod.mk.injEq] at h
    exact h.2.symm)

/-- A registry is framed when each of its rule functions is. -/
theorem Registry.framed_of_forall (reg : Registry)
    (h : ∀ e ∈ reg, RuleFunction.framed e.2.Function) : Registry.framed reg := by
  induction reg with
  | nil => exact Registry.framed_nil
  | cons e rest ih =>
    obtain ⟨name, d⟩ := e
    exact Registry.framed_cons name d rest (h (name, d) (List.mem_cons_self _ _))
      (ih (fun e he => h e (List.mem_cons_of_mem _ he)))

/-- The sample registry is framed. -/
theorem sampleRegistry_framed : Registry.framed sampleRegistry := by
  apply Registry.framed_of_forall
  intro e he
  simp only [sampleRegistry, List.mem_cons, List.mem_singleton, List.not_mem_nil, or_false]
    at he
  obtain rfl | rfl | rfl | rfl | rfl | rfl | rfl | rfl | rfl | rfl | rfl | rfl | rfl | rfl | rfl | rfl | rfl | rfl | rfl | rfl | rfl | rfl | rfl | rfl := he
  exacts [RuleFunction.framed_of_unchanged _ validateRequired_unchanged,
    acceptAll_framed,
    validateNumeric_framed _,
    validateInteger_framed _,
    RuleFunction.framed_of_unchanged _ validateString_unchanged,
    RuleFunction.framed_of_unchanged _ validateArray_unchanged,
    RuleFunction.framed_of_unchanged _ (validateDistinct_unchanged _),
    RuleFunction.framed_of_unchanged _ (validateMin_unchanged _),
    RuleFunction.framed_of_unchanged _ (validateMax_unchanged _),
    RuleFunction.framed_of_unchanged _ (validateBetween_unchanged _),
    RuleFunction.framed_of_unchanged _ (compareFields_unchanged _ _ _),
    RuleFunction.framed_of_unchanged _ (compareFields_unchanged _ _ _),
    RuleFunction.framed_of_unchanged _ (compareFields_unchanged _ _ _),
    RuleFunction.framed_of_unchanged _ (compareFields_unchanged _ _ _),
    rejectAll_framed,
    acceptAll_framed,
    acceptAll_framed,
    acceptAll_framed,
    acceptAll_framed,
    acceptAll_framed,
    acceptAll_framed,
    acceptAll_framed,
    acceptAll_framed,
    acceptAll_framed]

/-- On a rule source that was not checked yet, `AsRules` is the check of its fields. -/
theorem Ruler.AsRules_unchecked (reg : Registry) (src : Ruler) (fields0 : FieldMap)
    (hsrc : src.unchecked = true) (hfields : src.fields = some fields0) :
    src.AsRules reg = Rules.check reg ⟨fields0, false⟩ := by
  cases src with
  | rules r =>
    obtain ⟨fs, c⟩ := r
    simp only [Ruler.unchecked, Bool.not_eq_true'] at hsrc
    simp only [Ruler.fields, Option.some.injEq] at hfields
    subst hsrc hfields
    rfl
  | ruleSet s =>
    simp only [Ruler.fields] at hfields
    simp [Ruler.AsRules, RuleSet.AsRules, RuleSet.parse, hfields]

/-- The fields of a freshly checked rule tree are the checked fields of the source. -/
theorem Rules.check_fields (reg : Registry) (fields0 : FieldMap) (checked : Rules)
    (h : Rules.check reg ⟨fields0, false⟩ = some checked) :
    checked.Fields = fields0.map (fun e => (e.1, (Field.check reg e.2).1)) := by
  simp only [Rules.check, Bool.false_eq_true, if_false] at h
  split at h
  · cases h
    rfl
  · cases h

/-- A nil value of a nullable field: no rule is evaluated, nothing changes. -/
theorem validateField_nullable_nil (reg : Registry) (format : Formatter) (isJSON : Bool)
    (language : String) (name : String) (field : Field) (errors : Errors) (data : Form)
    (hnil : Form.get data name = some Value.nil) (hnullable : field.isNullable = true) :
    validateField reg format isJSON language name field errors data = some (errors, data) := by
  simp [validateField, hnil, hnullable]

/-- A nil value of a field that is neither nullable nor required: the entry is removed and
no error is recorded. -/
theorem validateField_plain_nil (reg : Registry) (format : Formatter) (isJSON : Bool)
    (language : String) (name : String) (field : Field) (errors : Errors) (data : Form)
    (hnil : Form.get data name = some Value.nil) (hnullable : field.isNullable = false)
    (hrequired : field.isRequired = false) :
    validateField reg format isJSON language name field errors data
      = some (errors, Form.delete data name) := by
  simp [validateField, hnil, hnullable, hrequired]

/-- An absent field that is not required is skipped. -/
theorem validateField_plain_absent (reg : Registry) (format : Formatter) (isJSON : Bool)
    (language : String) (name : String) (field : Field) (errors : Errors) (data : Form)
    (habsent : Form.get data name = none) (hrequired : field.isRequired = false) :
    validateField reg format isJSON language name field errors data = some (errors, data) := by
  simp [validateField, habsent, hrequired]

/-- With a framed registry, a nil entry whose field is nullable stays nil and without
errors through the evaluation of all the fields. -/
theorem validate_nullable_nil (reg : Registry) (format : Formatter) (isJSON : Bool)
    (language : String) (hframe : reg.framed) (f : String) (fields : FieldMap)
    (hnullable : ∀ e ∈ fields, e.1 = f → e.2.isNullable = true) :
    ∀ (errors : Errors) (data : Form) (errors1 : Errors) (data1 : Form),
      Form.get data f = some Value.nil →
      validate reg format isJSON language fields errors data = some (errors1, data1) →
      Errors.get errors1 f = Errors.get errors f ∧ Form.get data1 f = some Value.nil := by
  induction fields with
  | nil =>
    intro errors data errors1 data1 hnil h
    simp only [validate, Option.some.injEq, Prod.mk.injEq] at h
    obtain ⟨h1, h2⟩ := h
    subst h1 h2
    exact ⟨rfl, hnil⟩
  | cons e rest ih =>
    obtain ⟨n, fld⟩ := e
    intro errors data errors1 data1 hnil h
    simp only [validate] at h
    have hrest : ∀ e ∈ rest, e.1 = f → e.2.isNullable = true :=
      fun e he => hnullable e (List.mem_cons_of_mem _ he)
    by_cases hn : n = f
    · subst hn
      have hfld : fld.isNullable = true := hnullable (n, fld) (List.mem_cons_self _ _) rfl
      rw [validateField_nullable_nil reg format isJSON language n fld errors data hnil hfld] at h
      exact ih hrest errors data errors1 data1 hnil h
    · cases hv : validateField reg format isJSON language n fld errors data with
      | none => simp [hv] at h
      | some res =>
        obtain ⟨e1, d1⟩ := res
        simp only [hv] at h
        obtain ⟨hf1, hf2⟩ := validateField_frame reg format isJSON language hframe n f
          (Ne.symm hn) fld errors data e1 d1 hv
        obtain ⟨h1, h2⟩ := ih hrest e1 d1 errors1 data1 (by rw [hf2, hnil]) h
        exact ⟨by rw [h1, hf1], h2⟩

/-- With a framed registry, a nil entry whose field is neither nullable nor required is
absent and without errors after the evaluation of all the fields. -/
theorem validate_plain_nil (reg : Registry) (format : Formatter) (isJSON : Bool)
    (language : String) (hframe : reg.framed) (f : String) (fields : FieldMap)
    (hplain : ∀ e ∈ fields, e.1 = f → e.2.isNullable = false ∧ e.2.isRequired = false) :
    ∀ (errors : Errors) (data : Form) (errors1 : Errors) (data1 : Form),
      (Form.get data f = none ∨ (Form.get data f = some Value.nil ∧ ∃ fld, (f, fld) ∈ fields)) →
      validate reg format isJSON language fields errors data = some (errors1, data1) →
      Errors.get errors1 f = Errors.get errors f ∧ Form.get data1 f = none := by
  induction fields with
  | nil =>
    intro errors data errors1 data1 hstate h
    simp only [validate, Option.some.injEq, Prod.mk.injEq] at h
    obtain ⟨h1, h2⟩ := h
    subst h1 h2
    rcases hstate with hs | ⟨_, fld, hm⟩
    · exact ⟨rfl, hs⟩
    · cases hm
  | cons e rest ih =>
    obtain ⟨n, fld⟩ := e
    intro errors data errors1 data1 hstate h
    simp only [validate] at h
    have hrest : ∀ e ∈ rest, e.1 = f → e.2.isNullable = false ∧ e.2.isRequired = false :=
      fun e he => hplain e (List.mem_cons_of_mem _ he)
    by_cases hn : n = f
    · subst hn
      obtain ⟨hnul, hreq⟩ := hplain (n, fld) (List.mem_cons_self _ _) rfl
      rcases hstate with hs | ⟨hs, _⟩
      · rw [validateField_plain_absent reg format isJSON language n fld errors data hs hreq] at h
        exact ih hrest errors data errors1 data1 (Or.inl hs) h
      · rw [validateField_plain_nil reg format isJSON language n fld errors data hs hnul hreq]
          at h
        exact ih hrest errors _ errors1 data1 (Or.inl (Form.get_delete_same data n)) h
    · cases hv : validateField reg format isJSON language n fld errors data with
      | none => simp [hv] at h
      | some res =>
        obtain ⟨e1, d1⟩ := res
        simp only [hv] at h
        obtain ⟨hf1, hf2⟩ := validateField_frame reg format isJSON language hframe n f
          (Ne.symm hn) fld errors data e1 d1 hv
        have hstate1 : Form.get d1 f = none
            ∨ (Form.get d1 f = some Value.nil ∧ ∃ fld, (f, fld) ∈ rest) := by
          rw [hf2]
          rcases hstate with hs | ⟨hs, fld1, hm⟩
          · exact Or.inl hs
          · refine Or.inr ⟨hs, fld1, ?_⟩
            rcases List.mem_cons.mp hm with heq | hm
            · cases heq
              exact absurd rfl hn
            · exact hm
        obtain ⟨h1, h2⟩ := ih hrest e1 d1 errors1 data1 hstate1 h
        exact ⟨by rw [h1, hf1], h2⟩

/-- The flag `isNullable` after the check. -/
theorem Field.check_isNullable (reg : Registry) (fld : Field) :
    (Field.check reg fld).1.isNullable = true ↔ ∃ rule ∈ fld.Rules, rule.Name = "nullable" := by
  simp [Field.check]

/-- The flag `isRequired` after the check. -/
theorem Field.check_isRequired (reg : Registry) (fld : Field) :
    (Field.check reg fld).1.isRequired = true
      ↔ ∃ rule ∈ fld.Rules, rule.Name = "required" ∧ rule.ArrayDimension = 0 := by
  simp [Field.check]

/-- A registered rule of a dimension above zero passes on an empty array and leaves the
payload as it is. -/
theorem validateRule_empty_array (reg : Registry) (format : Formatter) (language : String)
    (f : String) (rule : Rule) (definition : RuleDefinition) (data : Form) (ty : String)
    (hreg : reg.get rule.Name = some definition) (hdim : 0 < rule.ArrayDimension)
    (hval : Form.get data f = some (Value.slice ty []))
    (harr : getFieldType (Value.slice ty []) = "array") :
    validateRule reg format language f rule data = some (none, data) := by
  obtain ⟨d, hd⟩ : ∃ d, rule.ArrayDimension = d + 1 := ⟨rule.ArrayDimension - 1, by omega⟩
  have hne : rule.ArrayDimension ≠ 0 := by omega
  have hin : validateRuleInArray definition.Function f rule.Params rule.ArrayDimension
      (Value.slice ty []) = some (true, Value.slice ty []) := by
    rw [hd]
    simp [validateRuleInArray, harr, validateElements, retype]
  simp only [validateRule, hreg, hval, Option.getD_some, hne, if_false, hin]
  rw [Form.set_get_self data f _ hval]

/-- Registered rules of dimensions above zero record no error on an empty array. -/
theorem validateRules_empty_array (reg : Registry) (format : Formatter) (language : String)
    (f : String) (data : Form) (ty : String)
    (hval : Form.get data f = some (Value.slice ty []))
    (harr : getFieldType (Value.slice ty []) = "array") (rules : List Rule)
    (hrules : ∀ r ∈ rules, 0 < r.ArrayDimension ∧ ∃ d, reg.get r.Name = some d)
    (errors : Errors) :
    validateRules reg format language f rules errors data = some (errors, data) := by
  induction rules with
  | nil => rfl
  | cons r rest ih =>
    obtain ⟨hdim, d, hd⟩ := hrules r (List.mem_cons_self _ _)
    simp only [validateRules,
      validateRule_empty_array reg format language f r d data ty hd hdim hval harr]
    exact ih (fun r1 hr1 => hrules r1 (List.mem_cons_of_mem _ hr1))

/-- Every rule of a field that passed the check is registered. -/
theorem Field.check_registered (reg : Registry) (fld : Field)
    (h : (Field.check reg fld).2 = true) : ∀ r ∈ fld.Rules, ∃ d, reg.get r.Name = some d := by
  intro r hr
  simp only [Field.check, List.all_eq_true] at h
  have := h r hr
  cases hd : reg.get r.Name with
  | none => simp [hd] at this
  | some d => exact ⟨d, rfl⟩

/-- A value classified as a string is a string. -/
theorem getFieldType_string (v : Value) (h : getFieldType v = "string") :
    ∃ s, v = Value.string s := by
  cases v with
  | string s => exact ⟨s, rfl⟩
  | slice ty xs =>
    simp only [getFieldType] at h
    split at h <;> exact absurd h (by decide)
  | _ => simp [getFieldType] at h

/-- A value classified as an array is a slice. -/
theorem getFieldType_array (v : Value) (h : getFieldType v = "array") :
    ∃ ty xs, v = Value.slice ty xs := by
  cases v with
  | slice ty xs => exact ⟨ty, xs, rfl⟩
  | _ => simp [getFieldType] at h

/-- The rule `validateInteger` on the strings `42`, `1.5` and `1.0`, with the sample of
`strconv.Atoi`. -/
theorem validateInteger_string_examples :
    validateInteger exampleLib "f" (Value.string "42") [] [("f", Value.string "42")]
      = some (true, [("f", Value.int IntType.int 42)])
    ∧ validateInteger exampleLib "f" (Value.string "1.5") [] [("f", Value.string "1.5")]
      = some (false, [("f", Value.string "1.5")])
    ∧ validateInteger exampleLib "f" (Value.string "1.0") [] [("f", Value.string "1.0")]
      = some (false, [("f", Value.string "1.0")]) := by
  decide

/-- With bounds that parse, `validateMin`, `validateMax` and `validateBetween` return, leave
the payload as it is, and the verdict of `validateBetween` is the conjunction of the two
others, whatever follows the bounds in the parameter lists. -/
theorem min_max_between_results (lib : Lib) (field : String) (value : Value)
    (a b : String) (ra rb rc : List String) (form : Form) (pa pb : GoFloat)
    (ha : lib.parseFloat a = some pa) (hb : lib.parseFloat b = some pb) :
    ∃ rmin rmax, validateMin lib field value (a :: ra) form = some (rmin, form)
      ∧ validateMax lib field value (b :: rb) form = some (rmax, form)
      ∧ validateBetween lib field value (a :: b :: rc) form = some (rmin && rmax, form) := by
  by_cases hn : getFieldType value = "numeric"
  · exact ⟨GoFloat.ge (lib.toFloat64 value) pa, GoFloat.le (lib.toFloat64 value) pb,
      by simp [validateMin, ha, hn], by simp [validateMax, hb, hn],
      by simp [validateBetween, ha, hb, hn]⟩
  · by_cases hs : getFieldType value = "string"
    · obtain ⟨s, rfl⟩ := getFieldType_string value hs
      exact ⟨decide ((strLen s : Int) ≥ intOfFloat lib.intOverflow pa),
        decide ((strLen s : Int) ≤ intOfFloat lib.intOverflow pb),
        by simp [validateMin, ha, hn, hs, assertString],
        by simp [validateMax, hb, hn, hs, assertString],
        by simp [validateBetween, ha, hb, hn, hs, assertString]⟩
    · by_cases harr : getFieldType value = "array"
      · obtain ⟨ty, xs, rfl⟩ := getFieldType_array value harr
        exact ⟨decide ((xs.length : Int) ≥ intOfFloat lib.intOverflow pa),
          decide ((xs.length : Int) ≤ intOfFloat lib.intOverflow pb),
          by simp [validateMin, ha, hn, hs, harr, reflectLen],
          by simp [validateMax, hb, hn, hs, harr, reflectLen],
          by simp [validateBetween, ha, hb, hn, hs, harr, reflectLen]⟩
      · by_cases hf : getFieldType value = "file"
        · exact ⟨false, false, by simp [validateMin, ha, hn, hs, harr, hf],
            by simp [validateMax, hb, hn, hs, harr, hf],
            by simp [validateBetween, ha, hb, hn, hs, harr, hf]⟩
        · exact ⟨true, true, by simp [validateMin, ha, hn, hs, harr, hf],
            by simp [validateMax, hb, hn, hs, harr, hf],
            by simp [validateBetween, ha, hb, hn, hs, harr, hf]⟩

/-- An unparseable bound is a panic even on a boolean, which passes a bound that parses. -/
theorem bounds_abort_examples :
    validateMin exampleLib "f" (Value.bool true) ["abc"] [] = none
    ∧ validateMax exampleLib "f" (Value.bool true) ["abc"] [] = none
    ∧ validateBetween exampleLib "f" (Value.bool true) ["3", "abc"] [] = none
    ∧ validateMin exampleLib "f" (Value.bool true) ["3"] [] = some (true, []) := by
  decide

/-- When `validateNumeric` returns false the payload is the one it was given. -/
theorem validateNumeric_false_unchanged (lib : Lib) (field : String) (value : Value)
    (params : List String) (form form1 : Form)
    (h : validateNumeric lib field value params form = some (false, form1)) : form1 = form := by
  unfold validateNumeric at h
  simp only at h
  repeat' split at h
  all_goals simp only [Option.some.injEq, Prod.mk.injEq, reduceCtorEq, Bool.true_eq_false,
    false_and] at h
  all_goals
    obtain ⟨_, h2⟩ := h
    exact h2.symm

/-- When `validateInteger` returns false the payload is the one it was given. -/
theorem validateInteger_false_unchanged (lib : Lib) (field : String) (value : Value)
    (params : List String) (form form1 : Form)
    (h : validateInteger lib field value params form = some (false, form1)) : form1 = form := by
  unfold validateInteger at h
  simp only at h
  repeat' split at h
  all_goals simp only [Option.some.injEq, Prod.mk.injEq, reduceCtorEq, Bool.true_eq_false,
    false_and] at h
  all_goals
    obtain ⟨_, h2⟩ := h
    exact h2.symm

/-- A cross-field rule on two strings compares their lengths in bytes, and on two arrays
their numbers of elements. -/
theorem compareFields_lengths (lib : Lib) (cmpF : GoFloat → GoFloat → Bool)
    (cmpN : Nat → Nat → Bool) (field : String) (value compared : Value) (p0 : String)
    (rest : List String) (form : Form) (hc : Form.get form p0 = some compared) :
    (∀ a c, value = Value.string a → compared = Value.string c →
        compareFields lib cmpF cmpN field value (p0 :: rest) form
          = some (cmpN (strLen a) (strLen c), form))
    ∧ (∀ ta xs tc ys, value = Value.slice ta xs → compared = Value.slice tc ys →
        getFieldType value = "array" → getFieldType compared = "array" →
        compareFields lib cmpF cmpN field value (p0 :: rest) form
          = some (cmpN xs.length ys.length, form)) := by
  refine ⟨?_, ?_⟩
  · intro a c ha hcm
    subst ha hcm
    simp [compareFields, hc, getFieldType, assertString]
  · intro ta xs tc ys ha hcm h1 h2
    subst ha hcm
    simp [compareFields, hc, h1, h2, reflectLen]

/-- In a request that is not JSON, a string under a field with the rules `required` and
`array` is made a one-element string array, which passes both rules. -/
theorem validateField_single_string (reg : Registry) (format : Formatter) (language : String)
    (f : String) (fld : Field) (errors : Errors) (data : Form) (s : String) (p1 p2 : List String)
    (dreq darr : RuleDefinition)
    (hrules : fld.Rules = [⟨"required", p1, 0⟩, ⟨"array", p2, 0⟩])
    (hisArray : fld.isArray = true)
    (hreq : reg.get "required" = some dreq) (hreqf : dreq.Function = validateRequired)
    (harr : reg.get "array" = some darr) (harrf : darr.Function = validateArray)
    (hval : Form.get data f = some (Value.string s)) :
    validateField reg format false language f fld errors data
      = some (errors, Form.set data f (Value.slice "[]string" [Value.string s])) := by
  have hconv : convertArray false f fld data
      = Form.set data f (Value.slice "[]string" [Value.string s]) := by
    simp only [convertArray, hval, hisArray, Value.kind]
    simp
    rfl
  have hget := Form.get_set_same data f (Value.slice "[]string" [Value.string s])
  have h1 : validateRule reg format language f ⟨"required", p1, 0⟩
      (Form.set data f (Value.slice "[]string" [Value.string s]))
      = some (none, Form.set data f (Value.slice "[]string" [Value.string s])) := by
    simp [validateRule, hreq, hreqf, hget, validateRequired]
  have h2 : validateRule reg format language f ⟨"array", p2, 0⟩
      (Form.set data f (Value.slice "[]string" [Value.string s]))
      = some (none, Form.set data f (Value.slice "[]string" [Value.string s])) := by
    simp [validateRule, harr, harrf, hget, validateArray, getFieldType]
  simp only [validateField, hval, reduceCtorEq, if_false, hconv, hrules, validateRules, h1, h2]

/-- A one-element string array under a field with the rules `required` and `array` passes
both rules and stays as it is. -/
theorem validateField_string_array (reg : Registry) (format : Formatter) (isJSON : Bool)
    (language : String) (f : String) (fld : Field) (errors : Errors) (data : Form)
    (s : String) (p1 p2 : List String) (dreq darr : RuleDefinition)
    (hrules : fld.Rules = [⟨"required", p1, 0⟩, ⟨"array", p2, 0⟩])
    (hreq : reg.get "required" = some dreq) (hreqf : dreq.Function = validateRequired)
    (harr : reg.get "array" = some darr) (harrf : darr.Function = validateArray)
    (hval : Form.get data f = some (Value.slice "[]string" [Value.string s])) :
    validateField reg format isJSON language f fld errors data = some (errors, data) := by
  have hconv : convertArray isJSON f fld data = data := by
    simp [convertArray, hval, Value.kind]
  have h1 : validateRule reg format language f ⟨"required", p1, 0⟩ data = some (none, data) := by
    simp [validateRule, hreq, hreqf, hval, validateRequired]
  have h2 : validateRule reg format language f ⟨"array", p2, 0⟩ data = some (none, data) := by
    simp [validateRule, harr, harrf, hval, validateArray, getFieldType]
  simp only [validateField, hval, reduceCtorEq, if_false, hconv, hrules, validateRules, h1, h2]

/-- With a framed registry, in a request that is not JSON, a string under a field with the
rules `required` and `array` is a one-element string array, without errors, after the
evaluation of all the fields. -/
theorem validate_single_string (reg : Registry) (format : Formatter) (language : String)
    (hframe : reg.framed) (f s : String) (dreq darr : RuleDefinition)
    (hreq : reg.get "required" = some dreq) (hreqf : dreq.Function = validateRequired)
    (harr : reg.get "array" = some darr) (harrf : darr.Function = validateArray)
    (fields : FieldMap)
    (hentries : ∀ e ∈ fields, e.1 = f → e.2.isArray = true
      ∧ ∃ p1 p2, e.2.Rules = [⟨"required", p1, 0⟩, ⟨"array", p2, 0⟩]) :
    ∀ (errors : Errors) (data : Form) (errors1 : Errors) (data1 : Form),
      (Form.get data f = some (Value.slice "[]string" [Value.string s])
        ∨ (Form.get data f = some (Value.string s) ∧ ∃ fld, (f, fld) ∈ fields)) →
      validate reg format false language fields errors data = some (errors1, data1) →
      Errors.get errors1 f = Errors.get errors f
        ∧ Form.get data1 f = some (Value.slice "[]string" [Value.string s]) := by
  induction fields with
  | nil =>
    intro errors data errors1 data1 hstate h
    simp only [validate, Option.some.injEq, Prod.mk.injEq] at h
    obtain ⟨h1, h2⟩ := h
    subst h1 h2
    rcases hstate with hs | ⟨_, fld, hm⟩
    · exact ⟨rfl, hs⟩
    · cases hm
  | cons e rest ih =>
    obtain ⟨n, fld⟩ := e
    intro errors data errors1 data1 hstate h
    simp only [validate] at h
    have hrest : ∀ e ∈ rest, e.1 = f → e.2.isArray = true
        ∧ ∃ p1 p2, e.2.Rules = [⟨"required", p1, 0⟩, ⟨"array", p2, 0⟩] :=
      fun e he => hentries e (List.mem_cons_of_mem _ he)
    by_cases hn : n = f
    · subst hn
      obtain ⟨hisArray, p1, p2, hrules⟩ := hentries (n, fld) (List.mem_cons_self _ _) rfl
      rcases hstate with hs | ⟨hs, _⟩
      · rw [validateField_string_array reg format false language n fld errors data s p1 p2
          dreq darr hrules hreq hreqf harr harrf hs] at h
        exact ih hrest errors data errors1 data1 (Or.inl hs) h
      · rw [validateField_single_string reg format language n fld errors data s p1 p2
          dreq darr hrules hisArray hreq hreqf harr harrf hs] at h
        exact ih hrest errors _ errors1 data1 (Or.inl (Form.get_set_same data n _)) h
    · cases hv : validateField reg format false language n fld errors data with
      | none => simp [hv] at h
      | some res =>
        obtain ⟨e1, d1⟩ := res
        simp only [hv] at h
        obtain ⟨hf1, hf2⟩ := validateField_frame reg format false language hframe n f
          (Ne.symm hn) fld errors data e1 d1 hv
        have hstate1 : Form.get d1 f = some (Value.slice "[]string" [Value.string s])
            ∨ (Form.get d1 f = some (Value.string s) ∧ ∃ fld, (f, fld) ∈ rest) := by
          rw [hf2]
          rcases hstate with hs | ⟨hs, fld1, hm⟩
          · exact Or.inl hs
          · refine Or.inr ⟨hs, fld1, ?_⟩
            rcases List.mem_cons.mp hm with heq | hm
            · cases heq
              exact absurd rfl hn
            · exact hm
        obtain ⟨h1, h2⟩ := ih hrest e1 d1 errors1 data1 hstate1 h
        exact ⟨by rw [h1, hf1], h2⟩

/-- A field with the registered rules `required` and `array` passes the check, which sets
`isArray` and leaves the rules as they are. -/
theorem Field.check_required_array (reg : Registry) (fld : Field) (p1 p2 : List String)
    (dreq darr : RuleDefinition)
    (hrules : fld.Rules = [⟨"required", p1, 0⟩, ⟨"array", p2, 0⟩])
    (hreq : reg.get "required" = some dreq) (harr : reg.get "array" = some darr) :
    (Field.check reg fld).2 = true ∧ (Field.check reg fld).1.isArray = true
      ∧ (Field.check reg fld).1.Rules = [⟨"required", p1, 0⟩, ⟨"array", p2, 0⟩] := by
  refine ⟨?_, ?_, hrules⟩
  · simp [Field.check, hrules, hreq, harr]
  · simp [Field.check, hrules]

/-- On the token made of `k` marks `>`, a non-empty name of letters and underscores and,
optionally, a colon followed by comma-separated parameters, `parseRule` returns the rule
with that name, those parameters in order (none without a colon) and the array dimension
`k` modulo `2 ^ 8`. -/
theorem parseRule_ruleToken (k : Nat) (name : String) (hne : name.data ≠ [])
    (hname : ∀ c ∈ name.data, isNameChar c = true) :
    parseRule (ruleToken k name none) = some ⟨name, [], k % 2 ^ 8⟩
    ∧ ∀ ps : List String, ps ≠ [] → (∀ p ∈ ps, ',' ∉ p.data) →
        parseRule (ruleToken k name (some ps)) = some ⟨name, ps, k % 2 ^ 8⟩ := by
  have hhead : ∀ (rest : List Char) (c : Char), (name.data ++ rest).head? = some c → c ≠ '>' := by
    intro rest c hc
    cases hn : name.data with
    | nil => exact absurd hn hne
    | cons a t =>
      rw [hn] at hc
      simp at hc
      subst hc
      exact (isNameChar_ne a (hname a (by rw [hn]; exact List.mem_cons_self _ _))).1
  have hcolon : ∀ c ∈ name.data, c ≠ ':' := fun c hc => (isNameChar_ne c (hname c hc)).2.1
  have hall : name.data.all isNameChar = true := by
    rw [List.all_eq_true]; exact hname
  refine ⟨?_, ?_⟩
  · have h1 := takeWhile_prefix_marks k (name.data ++ []) (hhead [])
    have h2 := takeWhile_name name.data [] hcolon (by simp)
    simp only [List.append_nil] at h1 h2
    simp only [parseRule, ruleToken, List.append_nil, h1.1, h1.2, h2.1, h2.2,
      List.length_replicate, hall]
    simp [hne]
  · intro ps hps hcomma
    have h1 := takeWhile_prefix_marks k
      (name.data ++ ':' :: [','].intercalate (ps.map String.data)) (hhead _)
    have h2 := takeWhile_name name.data (':' :: [','].intercalate (ps.map String.data))
      hcolon (by simp)
    have h3 : ([','].intercalate (ps.map String.data)).splitOn ',' = ps.map String.data := by
      apply List.splitOn_intercalate
      · intro l hl
        rw [List.mem_map] at hl
        obtain ⟨p, hp, rfl⟩ := hl
        exact hcomma p hp
      · simpa using hps
    simp only [parseRule, ruleToken, List.append_assoc, h1.1, h1.2, h2.1, h2.2,
      List.length_replicate, hall, h3]
    simp [hne, List.map_map, Function.comp_def]

/-- In a request that is not JSON, with the rules `required` and `array` of `rules.go`
registered, the payload holds a string under a field whose rules, in a rule source that
was not checked yet, are `required` and `array`. When the source has this field only,
`Validate` returns no error and the payload with the one-element string array of that
string under the field. With any fields, when each registered rule function changes at
most the entry of its own field and `Validate` returns, there is no error for the field
and the payload holds that array under it. -/
theorem Validate_single_string_array (reg : Registry) (format : Formatter) (language : String)
    (src : Ruler) (fields0 : FieldMap) (data : Form) (f s : String)
    (dreq darr : RuleDefinition)
    (hsrc : src.unchecked = true) (hfields : src.fields = some fields0)
    (hreq : reg.get "required" = some dreq) (hreqf : dreq.Function = validateRequired)
    (harr : reg.get "array" = some darr) (harrf : darr.Function = validateArray)
    (hval : Form.get data f = some (Value.string s))
    (hmem : ∃ fld, (f, fld) ∈ fields0)
    (hentries : ∀ e ∈ fields0, e.1 = f →
      ∃ p1 p2, e.2.Rules = [⟨"required", p1, 0⟩, ⟨"array", p2, 0⟩]) :
    (∀ fld, fields0 = [(f, fld)] →
        Validate reg format (some data) src false language
          = some ([], some (Form.set data f (Value.slice "[]string" [Value.string s])))
        ∧ Form.get (Form.set data f (Value.slice "[]string" [Value.string s])) f
          = some (Value.slice "[]string" [Value.string s]))
    ∧ (reg.framed → ∀ errors1 data1,
        Validate reg format (some data) src false language = some (errors1, data1) →
        Errors.get errors1 f = []
        ∧ ∃ d, data1 = some d
          ∧ Form.get d f = some (Value.slice "[]string" [Value.string s])) := by
  have has := Ruler.AsRules_unchecked reg src fields0 hsrc hfields
  refine ⟨?_, ?_⟩
  · intro fld hone
    subst hone
    obtain ⟨p1, p2, hrules⟩ := hentries (f, fld) (List.mem_singleton_self _) rfl
    obtain ⟨hlegal, hisArray, hrules1⟩ :=
      Field.check_required_array reg fld p1 p2 dreq darr hrules hreq harr
    have hcheck : Rules.check reg ⟨[(f, fld)], false⟩
        = some ⟨[(f, (Field.check reg fld).1)], true⟩ := by
      simp [Rules.check, hlegal]
    refine ⟨?_, Form.get_set_same data f _⟩
    simp only [Validate, has, hcheck, validate,
      validateField_single_string reg format language f _ [] data s p1 p2 dreq darr hrules1
        hisArray hreq hreqf harr harrf hval]
  · intro hframe errors1 data1 h
    simp only [Validate, has] at h
    cases hc : Rules.check reg ⟨fields0, false⟩ with
    | none => simp [hc] at h
    | some checked =>
      simp only [hc] at h
      cases hv : validate reg format false language checked.Fields [] data with
      | none => simp [hv] at h
      | some res =>
        obtain ⟨e1, d1⟩ := res
        simp only [hv, Option.some.injEq, Prod.mk.injEq] at h
        obtain ⟨h1, h2⟩ := h
        subst h1 h2
        have hfs := Rules.check_fields reg fields0 checked hc
        have hent : ∀ e ∈ checked.Fields, e.1 = f → e.2.isArray = true
            ∧ ∃ p1 p2, e.2.Rules = [⟨"required", p1, 0⟩, ⟨"array", p2, 0⟩] := by
          rw [hfs]
          intro e he hef
          rw [List.mem_map] at he
          obtain ⟨e0, he0, rfl⟩ := he
          obtain ⟨p1, p2, hrules⟩ := hentries e0 he0 hef
          obtain ⟨_, hisArray, hrules1⟩ :=
            Field.check_required_array reg e0.2 p1 p2 dreq darr hrules hreq harr
          exact ⟨hisArray, p1, p2, hrules1⟩
        have hmem1 : ∃ fld, (f, fld) ∈ checked.Fields := by
          obtain ⟨fld, hm⟩ := hmem
          rw [hfs]
          exact ⟨(Field.check reg fld).1, List.mem_map.mpr ⟨(f, fld), hm, rfl⟩⟩
        obtain ⟨r1, r2⟩ := validate_single_string reg format language hframe f s dreq darr
          hreq hreqf harr harrf checked.Fields hent [] data e1 d1 (Or.inr ⟨hval, hmem1⟩) hv
        exact ⟨by rw [r1]; rfl, d1, rfl, r2⟩

/-- The call of `TestValidateWithArray`: the payload `{string: hello}` in a request that is
not JSON. -/
theorem Validate_single_string_array_hello :
    Form.get [("string", Value.string "hello")] "string" = some (Value.string "hello")
    ∧ Validate sampleRegistry sampleFormat (some [("string", Value.string "hello")])
        (Ruler.ruleSet [("string", ["required", "array"])]) false "en-US"
      = some ([], some [("string", Value.slice "[]string" [Value.string "hello"])]) :=
  ⟨by decide,
   ((Validate_single_string_array sampleRegistry sampleFormat "en-US"
      (Ruler.ruleSet [("string", ["required", "array"])])
      [("string", ⟨[⟨"required", [], 0⟩, ⟨"array", [], 0⟩], false, false, false⟩)]
      [("string", Value.string "hello")] "string" "hello"
      ⟨validateRequired, false, true⟩ ⟨validateArray, false, true⟩
      rfl (by decide) rfl rfl rfl rfl (by decide) ⟨_, List.mem_singleton_self _⟩
      (fun e he _ => by
        rw [List.mem_singleton] at he
        subst he
        exact ⟨[], [], rfl⟩)).1 _ rfl).1⟩

/-! ## The claims -/

/-- C1: `validateRequired` always returns, leaves the payload as it is, and returns true
exactly when the payload has the key `field` with a value that is neither nil nor the
empty string. -/
theorem validateRequired_iff (field : String) (value : Value) (parameters : List String)
    (form : Form) :
    ∃ b, validateRequired field value parameters form = some (b, form) ∧
      (b = true ↔ ∃ val, Form.get form field = some val ∧ val ≠ Value.nil
        ∧ val ≠ Value.string "") := by
  unfold validateRequired
  cases h : Form.get form field with
  | none => simp
  | some val =>
    cases val <;> simp
    rename_i s
    by_cases hs : s = "" <;> simp [hs]

/-- C2: on a string value `validateNumeric` always returns; it returns true exactly when
`strconv.ParseFloat` accepts the string, the payload then maps `field` to the parsed
float64, and when it returns false the payload is the one it was given. -/
theorem validateNumeric_string (lib : Lib) (field s : String) (parameters : List String)
    (form : Form) :
    ∃ b form1, validateNumeric lib field (Value.string s) parameters form = some (b, form1) ∧
      (b = true ↔ ∃ f, lib.parseFloat s = some f) ∧
      (∀ f, lib.parseFloat s = some f → Form.get form1 field = some (Value.float64 f)) ∧
      (b = false → form1 = form) := by
  have hk : validateNumeric lib field (Value.string s) parameters form =
      match lib.parseFloat s with
      | some floatVal => some (true, Form.set form field (.float64 floatVal))
      | none => some (false, form) := by
    rfl
  rw [hk]
  cases hp : lib.parseFloat s with
  | none => exact ⟨false, form, rfl, by simp, by simp, fun _ => rfl⟩
  | some f =>
    refine ⟨true, Form.set form field (.float64 f), rfl, by simp, ?_, by simp⟩
    intro g hg
    cases hg
    exact Form.get_set_same form field (.float64 f)

/-- C3: evaluation of `validateInteger` on the float64 and on the float32 `-1.5`, a value
of both formats with a non-zero fractional part: the rule returns true and replaces the
payload entry by the integer `-1`, whatever the outside functions are. -/
theorem validateInteger_negative_fraction (lib : Lib) :
    validateInteger lib "f" (Value.float64 (.fin true 3 (-1))) []
        [("f", Value.float64 (.fin true 3 (-1)))]
      = some (true, [("f", Value.int IntType.int (-1))])
    ∧ validateInteger lib "f" (Value.float32 (.fin true 3 (-1))) []
        [("f", Value.float32 (.fin true 3 (-1)))]
      = some (true, [("f", Value.int IntType.int (-1))])
    ∧ GoFloat.toRat (.fin true 3 (-1)) = some (-3 / 2)
    ∧ GoFloat.hasFraction (.fin true 3 (-1)) = true
    ∧ GoFloat.isValue binary64 (.fin true 3 (-1)) = true
    ∧ GoFloat.isValue binary32 (.fin true 3 (-1)) = true :=
  ⟨rfl, rfl, by simp only [GoFloat.toRat, signed]; norm_num, rfl, rfl, rfl⟩

/-- C4 (amended): when the first parameter parses to `p`, on a numeric value `validateMin`
returns `ToFloat64(value) >= p` and `validateMax` returns `ToFloat64(value) <= p`; and when
`p` is finite and its truncation toward zero fits a 64-bit `int`, on a string they compare
the length in bytes, and on an array the number of elements, with that truncation. -/
theorem validateMin_validateMax_measure (lib : Lib) (field : String) (value : Value)
    (p0 : String) (rest : List String) (form : Form) (p : GoFloat)
    (hp : lib.parseFloat p0 = some p) :
    (getFieldType value = "numeric" →
      validateMin lib field value (p0 :: rest) form
          = some (GoFloat.ge (lib.toFloat64 value) p, form)
        ∧ validateMax lib field value (p0 :: rest) form
          = some (GoFloat.le (lib.toFloat64 value) p, form))
    ∧ (∀ q : ℚ, p.toRat = some q → -2 ^ 63 ≤ truncTowardZero q → truncTowardZero q < 2 ^ 63 →
        (∀ s : String, value = Value.string s →
          validateMin lib field value (p0 :: rest) form
              = some (decide ((strLen s : Int) ≥ truncTowardZero q), form)
            ∧ validateMax lib field value (p0 :: rest) form
              = some (decide ((strLen s : Int) ≤ truncTowardZero q), form))
        ∧ (∀ (ty : String) (xs : List Value), value = Value.slice ty xs →
            getFieldType value = "array" →
          validateMin lib field value (p0 :: rest) form
              = some (decide ((xs.length : Int) ≥ truncTowardZero q), form)
            ∧ validateMax lib field value (p0 :: rest) form
              = some (decide ((xs.length : Int) ≤ truncTowardZero q), form))) := by
  refine ⟨?_, ?_⟩
  · intro hn
    simp [validateMin, validateMax, hp, hn]
  · intro q hq hlo hhi
    have hint : intOfFloat lib.intOverflow p = truncTowardZero q := by
      have ht := GoFloat.trunc_eq p
      rw [hq] at ht
      simp only [Option.map_some'] at ht
      simp only [intOfFloat, ht]
      rw [if_pos ⟨hlo, hhi⟩]
    refine ⟨?_, ?_⟩
    · intro s hs
      subst hs
      simp [validateMin, validateMax, hp, getFieldType, assertString, hint]
    · intro ty xs hv ha
      subst hv
      have hty : ty ≠ "[]filesystem.File" := by
        intro h
        simp [getFieldType, h] at ha
      simp [validateMin, validateMax, hp, getFieldType, hty, reflectLen, hint]

/-- C4, witness: `min:2.9` on the string `ab`; 2.9 truncates to 2 and the rule passes. -/
theorem validateMin_validateMax_measure_witness :
    exampleLib.parseFloat "2.9" = some (.fin false 6530219459687219 (-51))
    ∧ GoFloat.toRat (.fin false 6530219459687219 (-51))
        = some (6530219459687219 / 2251799813685248)
    ∧ truncTowardZero (6530219459687219 / 2251799813685248) = 2
    ∧ validateMin exampleLib "f" (Value.string "ab") ["2.9"] [] = some (true, []) := by
  have h1 : exampleLib.parseFloat "2.9" = some (.fin false 6530219459687219 (-51)) := by decide
  have h2 : GoFloat.toRat (.fin false 6530219459687219 (-51))
        = some (6530219459687219 / 2251799813685248) := by
    simp only [GoFloat.toRat, signed]
    norm_num
  have h3 : truncTowardZero (6530219459687219 / 2251799813685248) = 2 := by
    unfold truncTowardZero
    rw [if_pos (by norm_num)]
    rw [Int.floor_eq_iff]
    norm_num
  refine ⟨h1, h2, h3, ?_⟩
  have h := ((validateMin_validateMax_measure exampleLib "f" (Value.string "ab") "2.9" [] []
    _ h1).2 _ h2 (by rw [h3]; norm_num) (by rw [h3]; norm_num)).1 "ab" rfl
  rw [h.1, h3]
  rfl

/-- C4, counterexample: with the bound `1e19`, which truncates to an integer above the
range of `int`, and the out-of-range conversion of amd64, `validateMin` accepts the empty
string although its length is below the bound, and `validateMax` rejects it although its
length is not above the bound. -/
theorem validateMin_bound_out_of_range :
    exampleLib.parseFloat "1e19" = some (.fin false 19073486328125 19)
    ∧ GoFloat.trunc (.fin false 19073486328125 19) = some (10 ^ 19)
    ∧ validateMin exampleLib "f" (Value.string "") ["1e19"] [] = some (true, [])
    ∧ ¬ ((strLen "" : Int) ≥ 10 ^ 19)
    ∧ validateMax exampleLib "f" (Value.string "") ["1e19"] [] = some (false, [])
    ∧ (strLen "" : Int) ≤ 10 ^ 19 := by
  decide

/-- C5: on a value of unsupported classification, `validateMin` and `validateMax` return
true when their bound parses, and `validateBetween` returns true when both bounds parse;
the payload is left as it is. -/
theorem unsupported_passes (lib : Lib) (field : String) (value : Value) (form : Form)
    (a : String) (pa : GoFloat)
    (hv : getFieldType value = "unsupported") (ha : lib.parseFloat a = some pa) :
    (∀ rest, validateMin lib field value (a :: rest) form = some (true, form))
    ∧ (∀ rest, validateMax lib field value (a :: rest) form = some (true, form))
    ∧ (∀ b pb rest, lib.parseFloat b = some pb →
        validateBetween lib field value (a :: b :: rest) form = some (true, form)) := by
  refine ⟨?_, ?_, ?_⟩
  · intro rest
    simp [validateMin, ha, hv]
  · intro rest
    simp [validateMax, ha, hv]
  · intro b pb rest hb
    simp [validateBetween, ha, hb, hv]

/-- C5, witness: the boolean `true` passes `min:3`, `max:3` and `between:3,5`. -/
theorem unsupported_passes_witness :
    getFieldType (Value.bool true) = "unsupported"
    ∧ exampleLib.parseFloat "3" = some (.fin false 3 0)
    ∧ exampleLib.parseFloat "5" = some (.fin false 5 0)
    ∧ validateMin exampleLib "f" (Value.bool true) ["3"] [] = some (true, [])
    ∧ validateMax exampleLib "f" (Value.bool true) ["3"] [] = some (true, [])
    ∧ validateBetween exampleLib "f" (Value.bool true) ["3", "5"] [] = some (true, []) :=
  have h := unsupported_passes exampleLib "f" (Value.bool true) [] "3" (.fin false 3 0)
    (by decide) (by decide)
  ⟨by decide, by decide, by decide, h.1 [], h.2.1 [],
    h.2.2 "5" (.fin false 5 0) [] (by decide)⟩

/-- C6 (amended): when the subject value and the value of the compared field, present in
the payload, are both of unsupported classification, the four cross-field rules return
false and leave the payload as it is. -/
theorem compare_unsupported_fails (lib : Lib) (field : String) (value compared : Value)
    (p0 : String) (rest : List String) (form : Form)
    (hv : getFieldType value = "unsupported") (hc : Form.get form p0 = some compared)
    (_hcv : getFieldType compared = "unsupported") :
    validateGreaterThan lib field value (p0 :: rest) form = some (false, form)
    ∧ validateGreaterThanEqual lib field value (p0 :: rest) form = some (false, form)
    ∧ validateLowerThan lib field value (p0 :: rest) form = some (false, form)
    ∧ validateLowerThanEqual lib field value (p0 :: rest) form = some (false, form) :=
  ⟨compareFields_unsupported lib _ _ field value compared p0 rest form hv hc,
   compareFields_unsupported lib _ _ field value compared p0 rest form hv hc,
   compareFields_unsupported lib _ _ field value compared p0 rest form hv hc,
   compareFields_unsupported lib _ _ field value compared p0 rest form hv hc⟩

/-- C6, witness: a struct compared with a nil field. -/
theorem compare_unsupported_fails_witness :
    getFieldType (Value.other OtherType.struct) = "unsupported"
    ∧ Form.get [("a", Value.other OtherType.struct), ("b", Value.nil)] "b" = some Value.nil
    ∧ getFieldType Value.nil = "unsupported"
    ∧ validateLowerThanEqual exampleLib "a" (Value.other OtherType.struct) ["b"]
        [("a", Value.other OtherType.struct), ("b", Value.nil)]
      = some (false, [("a", Value.other OtherType.struct), ("b", Value.nil)]) :=
  ⟨by decide, by decide, by decide,
    (compare_unsupported_fails exampleLib "a" (Value.other OtherType.struct) Value.nil "b" []
      [("a", Value.other OtherType.struct), ("b", Value.nil)]
      (by decide) (by decide) (by decide)).2.2.2⟩

/-- C6, counterexample: in the payload `{a: true, b: false}` the four cross-field rules on
`a` compared with `b`, two booleans of unsupported classification, return false. -/
theorem compare_unsupported_returns_false :
    getFieldType (Value.bool true) = "unsupported"
    ∧ getFieldType (Value.bool false) = "unsupported"
    ∧ validateGreaterThan exampleLib "a" (Value.bool true) ["b"]
        [("a", Value.bool true), ("b", Value.bool false)]
      = some (false, [("a", Value.bool true), ("b", Value.bool false)])
    ∧ validateGreaterThanEqual exampleLib "a" (Value.bool true) ["b"]
        [("a", Value.bool true), ("b", Value.bool false)]
      = some (false, [("a", Value.bool true), ("b", Value.bool false)])
    ∧ validateLowerThan exampleLib "a" (Value.bool true) ["b"]
        [("a", Value.bool true), ("b", Value.bool false)]
      = some (false, [("a", Value.bool true), ("b", Value.bool false)])
    ∧ validateLowerThanEqual exampleLib "a" (Value.bool true) ["b"]
        [("a", Value.bool true), ("b", Value.bool false)]
      = some (false, [("a", Value.bool true), ("b", Value.bool false)]) := by
  decide

/-- C7: with a non-empty parameter list, when the field named by the first parameter is
missing from the payload or holds a value classified differently from the subject, the
four cross-field rules return false, without a panic, and leave the payload as it is. -/
theorem compare_missing_or_mismatch_fails (lib : Lib) (field : String) (value : Value)
    (p0 : String) (rest : List String) (form : Form)
    (h : Form.get form p0 = none
      ∨ ∃ c, Form.get form p0 = some c ∧ getFieldType c ≠ getFieldType value) :
    validateGreaterThan lib field value (p0 :: rest) form = some (false, form)
    ∧ validateGreaterThanEqual lib field value (p0 :: rest) form = some (false, form)
    ∧ validateLowerThan lib field value (p0 :: rest) form = some (false, form)
    ∧ validateLowerThanEqual lib field value (p0 :: rest) form = some (false, form) :=
  ⟨compareFields_missing_or_mismatch lib _ _ field value p0 rest form h,
   compareFields_missing_or_mismatch lib _ _ field value p0 rest form h,
   compareFields_missing_or_mismatch lib _ _ field value p0 rest form h,
   compareFields_missing_or_mismatch lib _ _ field value p0 rest form h⟩

/-- C7, witness: payload `{a: 5, b: "x"}` with `greater_than:b` on `a`, and payload
`{a: 5}` with `lower_than:b` on `a`. -/
theorem compare_missing_or_mismatch_fails_witness :
    (∃ c, Form.get [("a", Value.int IntType.int 5), ("b", Value.string "x")] "b" = some c
      ∧ getFieldType c ≠ getFieldType (Value.int IntType.int 5))
    ∧ validateGreaterThan exampleLib "a" (Value.int IntType.int 5) ["b"]
        [("a", Value.int IntType.int 5), ("b", Value.string "x")]
      = some (false, [("a", Value.int IntType.int 5), ("b", Value.string "x")])
    ∧ Form.get [("a", Value.int IntType.int 5)] "b" = none
    ∧ validateLowerThan exampleLib "a" (Value.int IntType.int 5) ["b"]
        [("a", Value.int IntType.int 5)]
      = some (false, [("a", Value.int IntType.int 5)]) :=
  ⟨⟨Value.string "x", by decide, by decide⟩,
   (compare_missing_or_mismatch_fails exampleLib "a" (Value.int IntType.int 5) "b" []
      [("a", Value.int IntType.int 5), ("b", Value.string "x")]
      (Or.inr ⟨Value.string "x", by decide, by decide⟩)).1,
   by decide,
   (compare_missing_or_mismatch_fails exampleLib "a" (Value.int IntType.int 5) "b" []
      [("a", Value.int IntType.int 5)] (Or.inl (by decide))).2.2.1⟩

/-- C8: `validateDistinct` always returns, leaves the payload as it is, and returns true
exactly when the value is an array in which no element equals an element at a later
position; so it is false on a non-array, and true on the empty array. -/
theorem validateDistinct_iff (lib : Lib) (field : String) (value : Value)
    (parameters : List String) (form : Form) :
    ∃ b, validateDistinct lib field value parameters form = some (b, form) ∧
      (b = true ↔ ∃ ty xs, value = Value.slice ty xs ∧ getFieldType value = "array" ∧
        ∀ (i j : Nat) (hi : i < j) (hj : j < xs.length),
          lib.valueEq (xs.get ⟨i, Nat.lt_trans hi hj⟩) (xs.get ⟨j, hj⟩) = false) := by
  by_cases ha : getFieldType value = "array"
  · cases value with
    | slice ty xs =>
      refine ⟨distinctLoop lib [] xs, by simp [validateDistinct, ha, reflectElems], ?_⟩
      rw [distinctLoop_iff]
      simp only [List.not_mem_nil, false_implies, implies_true, true_and]
      rw [List.pairwise_iff_get]
      constructor
      · intro h
        refine ⟨ty, xs, rfl, ha, ?_⟩
        intro i j hi hj
        exact h ⟨i, Nat.lt_trans hi hj⟩ ⟨j, hj⟩ hi
      · rintro ⟨ty1, xs1, heq, _, h⟩
        cases heq
        intro i j hij
        exact h i.1 j.1 hij j.2
    | _ => simp [getFieldType] at ha
  · refine ⟨false, by simp [validateDistinct, ha], ?_⟩
    constructor
    · intro h; cases h
    · rintro ⟨_, _, _, h, _⟩
      exact absurd h ha

/-- C9: `validateNumeric` returns true, leaving the payload as it is, on every signed
integer, unsigned integer and float value, and false on a `uintptr`, on nil, on a boolean,
on a slice and on a value of any other kind (map, struct, ...). -/
theorem validateNumeric_kinds (lib : Lib) (field : String) (parameters : List String)
    (form : Form) :
    (∀ t n, validateNumeric lib field (Value.int t n) parameters form = some (true, form))
    ∧ (∀ t n, validateNumeric lib field (Value.uint t n) parameters form = some (true, form))
    ∧ (∀ f, validateNumeric lib field (Value.float32 f) parameters form = some (true, form))
    ∧ (∀ f, validateNumeric lib field (Value.float64 f) parameters form = some (true, form))
    ∧ (∀ n, validateNumeric lib field (Value.uintptr n) parameters form = some (false, form))
    ∧ validateNumeric lib field Value.nil parameters form = some (false, form)
    ∧ (∀ b, validateNumeric lib field (Value.bool b) parameters form = some (false, form))
    ∧ (∀ ty xs, validateNumeric lib field (Value.slice ty xs) parameters form
        = some (false, form))
    ∧ (∀ t, validateNumeric lib field (Value.other t) parameters form = some (false, form)) := by
  refine ⟨?_, ?_, ?_, ?_, ?_, ?_, ?_, ?_, ?_⟩
  · intro t n; cases t <;> rfl
  · intro t n; cases t <;> rfl
  · intro f; rfl
  · intro f; rfl
  · intro n; rfl
  · rfl
  · intro b; rfl
  · intro ty xs; rfl
  · intro t; cases t <;> rfl

/-- C10 (amended): on the token made of `k` marks `>` with `k` at most 255, a non-empty
name of letters and underscores and, optionally, a colon followed by comma-separated
parameters, `parseRule` returns the rule with that name, those parameters in order (none
without a colon) and the array dimension `k`. -/
theorem parseRule_token (k : Nat) (hk : k ≤ 255) (name : String) (hne : name.data ≠ [])
    (hname : ∀ c ∈ name.data, isNameChar c = true) :
    parseRule (ruleToken k name none) = some ⟨name, [], k⟩
    ∧ ∀ ps : List String, ps ≠ [] → (∀ p ∈ ps, ',' ∉ p.data) →
        parseRule (ruleToken k name (some ps)) = some ⟨name, ps, k⟩ := by
  have hmod : k % 2 ^ 8 = k := Nat.mod_eq_of_lt (by omega)
  have h := parseRule_ruleToken k name hne hname
  rw [hmod] at h
  exact h

/-- C10, witness: the tokens `required`, `>min:3` and `>>max:5`. -/
theorem parseRule_token_witness :
    ruleToken 0 "required" none = "required"
    ∧ parseRule "required" = some ⟨"required", [], 0⟩
    ∧ ruleToken 1 "min" (some ["3"]) = ">min:3"
    ∧ parseRule ">min:3" = some ⟨"min", ["3"], 1⟩
    ∧ ruleToken 2 "max" (some ["5"]) = ">>max:5"
    ∧ parseRule ">>max:5" = some ⟨"max", ["5"], 2⟩ := by
  have hr : ruleToken 0 "required" none = "required" := by decide
  have hmin : ruleToken 1 "min" (some ["3"]) = ">min:3" := by decide
  have hmax : ruleToken 2 "max" (some ["5"]) = ">>max:5" := by decide
  refine ⟨hr, ?_, hmin, ?_, hmax, ?_⟩
  · rw [← hr]
    exact (parseRule_token 0 (by decide) "required" (by decide) (by decide)).1
  · rw [← hmin]
    exact (parseRule_token 1 (by decide) "min" (by decide) (by decide)).2 ["3"]
      (by decide) (by decide)
  · rw [← hmax]
    exact (parseRule_token 2 (by decide) "max" (by decide) (by decide)).2 ["5"]
      (by decide) (by decide)

/-- C10, counterexample: on the token made of 256 marks `>` followed by `max:5` the array
dimension of the rule that `parseRule` returns is 0, not 256, which the `uint8` field
`ArrayDimension` does not hold. -/
theorem parseRule_token_overflow :
    parseRule (ruleToken 256 "max" (some ["5"])) = some ⟨"max", ["5"], 0⟩
    ∧ parseRule (ruleToken 256 "max" (some ["5"])) ≠ some ⟨"max", ["5"], 256⟩ := by
  have h := (parseRule_ruleToken 256 "max" (by decide) (by decide)).2 ["5"]
    (by decide) (by decide)
  have hmod : 256 % 2 ^ 8 = 0 := by decide
  rw [hmod] at h
  rw [h]
  exact ⟨rfl, by decide⟩

/-- C11: a token with a comma that no colon precedes is a fatal error of `parseRule`. -/
theorem parseRule_comma_outside_parameters (token : String)
    (h : ',' ∈ token.data.takeWhile (fun c => c != ':')) :
    parseRule token = none := by
  rw [name_of_token, List.mem_append] at h
  have hname : ',' ∈ (token.data.dropWhile (fun c => c == '>')).takeWhile (fun c => c != ':') := by
    rcases h with h | h
    · have hgt : (fun c : Char => c == '>') ',' = true :=
        List.mem_takeWhile_imp (p := fun c : Char => c == '>') h
      exact absurd hgt (by decide)
    · exact h
  have hall : ((token.data.dropWhile (fun c => c == '>')).takeWhile
      (fun c => c != ':')).all isNameChar = false := by
    rw [List.all_eq_false]
    exact ⟨',', hname, by decide⟩
  simp only [parseRule, hall, or_true, if_true]

/-- C11, witness: the token `invalid,rule`. -/
theorem parseRule_comma_outside_parameters_witness :
    ',' ∈ "invalid,rule".data.takeWhile (fun c => c != ':')
    ∧ parseRule "invalid,rule" = none :=
  ⟨by decide, parseRule_comma_outside_parameters "invalid,rule" (by decide)⟩

/-- C12: the payload holds nil under a field whose rule list, in a rule source that was not
checked yet, has a rule named `nullable`. When the source has this field only and its
rules pass the check, `Validate` returns no error and the payload as it was. With any
fields, when each registered rule function changes at most the entry of its own field
and `Validate` returns, there is no error for the field and the payload still holds nil
under it. -/
theorem Validate_nullable_nil (reg : Registry) (format : Formatter) (isJSON : Bool)
    (language : String) (src : Ruler) (fields0 : FieldMap) (data : Form) (f : String)
    (hsrc : src.unchecked = true) (hfields : src.fields = some fields0)
    (hnil : Form.get data f = some Value.nil)
    (hnullable : ∀ e ∈ fields0, e.1 = f → ∃ rule ∈ e.2.Rules, rule.Name = "nullable") :
    (∀ fld, fields0 = [(f, fld)] → (Field.check reg fld).2 = true →
        Validate reg format (some data) src isJSON language = some ([], some data))
    ∧ (reg.framed → ∀ errors1 data1,
        Validate reg format (some data) src isJSON language = some (errors1, data1) →
        Errors.get errors1 f = [] ∧ ∃ d, data1 = some d ∧ Form.get d f = some Value.nil) := by
  have has := Ruler.AsRules_unchecked reg src fields0 hsrc hfields
  refine ⟨?_, ?_⟩
  · intro fld hone hlegal
    subst hone
    have hnul : (Field.check reg fld).1.isNullable = true :=
      (Field.check_isNullable reg fld).mpr (hnullable (f, fld) (List.mem_singleton_self _) rfl)
    have hcheck : Rules.check reg ⟨[(f, fld)], false⟩
        = some ⟨[(f, (Field.check reg fld).1)], true⟩ := by
      simp [Rules.check, hlegal]
    simp only [Validate, has, hcheck, validate,
      validateField_nullable_nil reg format isJSON language f _ [] data hnil hnul]
  · intro hframe errors1 data1 h
    simp only [Validate, has] at h
    cases hc : Rules.check reg ⟨fields0, false⟩ with
    | none => simp [hc] at h
    | some checked =>
      simp only [hc] at h
      cases hv : validate reg format isJSON language checked.Fields [] data with
      | none => simp [hv] at h
      | some res =>
        obtain ⟨e1, d1⟩ := res
        simp only [hv, Option.some.injEq, Prod.mk.injEq] at h
        obtain ⟨h1, h2⟩ := h
        subst h1 h2
        have hflags : ∀ e ∈ checked.Fields, e.1 = f → e.2.isNullable = true := by
          rw [Rules.check_fields reg fields0 checked hc]
          intro e he hef
          rw [List.mem_map] at he
          obtain ⟨e0, he0, rfl⟩ := he
          exact (Field.check_isNullable reg e0.2).mpr (hnullable e0 he0 hef)
        obtain ⟨r1, r2⟩ := validate_nullable_nil reg format isJSON language hframe f
          checked.Fields hflags [] data e1 d1 hnil hv
        exact ⟨by rw [r1]; rfl, d1, rfl, r2⟩

/-- C12, witness: the payload `{nullField: nil}` with the rules `required`, `nullable`,
`numeric`; and the same with a second field `number` holding the string `3`, made a
float64 by `numeric`. -/
theorem Validate_nullable_nil_witness :
    Form.get [("nullField", Value.nil)] "nullField" = some Value.nil
    ∧ Validate sampleRegistry sampleFormat (some [("nullField", Value.nil)])
        (Ruler.ruleSet [("nullField", ["required", "nullable", "numeric"])]) true "en-US"
      = some ([], some [("nullField", Value.nil)])
    ∧ Validate sampleRegistry sampleFormat
        (some [("number", Value.string "3"), ("nullField", Value.nil)])
        (Ruler.ruleSet [("number", ["required", "numeric"]),
          ("nullField", ["required", "nullable", "numeric"])]) true "en-US"
      = some ([], some [("number", Value.float64 (.fin false 3 0)), ("nullField", Value.nil)])
    ∧ Form.get [("number", Value.float64 (.fin false 3 0)), ("nullField", Value.nil)]
        "nullField" = some Value.nil := by
  have h1 := (Validate_nullable_nil sampleRegistry sampleFormat true "en-US"
      (Ruler.ruleSet [("nullField", ["required", "nullable", "numeric"])])
      [("nullField", ⟨[⟨"required", [], 0⟩, ⟨"nullable", [], 0⟩, ⟨"numeric", [], 0⟩],
        false, false, false⟩)]
      [("nullField", Value.nil)] "nullField" rfl (by decide) (by decide)
      (by decide)).1 _ rfl (by decide)
  have hrun : Validate sampleRegistry sampleFormat
        (some [("number", Value.string "3"), ("nullField", Value.nil)])
        (Ruler.ruleSet [("number", ["required", "numeric"]),
          ("nullField", ["required", "nullable", "numeric"])]) true "en-US"
      = some ([], some [("number", Value.float64 (.fin false 3 0)), ("nullField", Value.nil)]) := by
    decide
  obtain ⟨_, d, hd, hget⟩ := (Validate_nullable_nil sampleRegistry sampleFormat true "en-US"
      (Ruler.ruleSet [("number", ["required", "numeric"]),
          ("nullField", ["required", "nullable", "numeric"])])
      [("number", ⟨[⟨"required", [], 0⟩, ⟨"numeric", [], 0⟩], false, false, false⟩),
       ("nullField", ⟨[⟨"required", [], 0⟩, ⟨"nullable", [], 0⟩, ⟨"numeric", [], 0⟩],
        false, false, false⟩)]
      [("number", Value.string "3"), ("nullField", Value.nil)] "nullField" rfl (by decide)
      (by decide) (by decide)).2 sampleRegistry_framed _ _ hrun
  cases hd
  exact ⟨by decide, h1, hrun, hget⟩

/-- C13: the payload holds nil under a field whose rule list, in a rule source that was not
checked yet, has no rule named `required` or `nullable`. When the source has this field
only and its rules pass the check, `Validate` returns no error and the payload without
the key. With any fields, when each registered rule function changes at most the entry
of its own field and `Validate` returns, there is no error for the field and the payload
no longer holds the key. -/
theorem Validate_plain_nil (reg : Registry) (format : Formatter) (isJSON : Bool)
    (language : String) (src : Ruler) (fields0 : FieldMap) (data : Form) (f : String)
    (hsrc : src.unchecked = true) (hfields : src.fields = some fields0)
    (hnil : Form.get data f = some Value.nil)
    (hmem : ∃ fld, (f, fld) ∈ fields0)
    (hplain : ∀ e ∈ fields0, e.1 = f →
      ∀ rule ∈ e.2.Rules, rule.Name ≠ "required" ∧ rule.Name ≠ "nullable") :
    (∀ fld, fields0 = [(f, fld)] → (Field.check reg fld).2 = true →
        Validate reg format (some data) src isJSON language
          = some ([], some (Form.delete data f))
        ∧ Form.get (Form.delete data f) f = none)
    ∧ (reg.framed → ∀ errors1 data1,
        Validate reg format (some data) src isJSON language = some (errors1, data1) →
        Errors.get errors1 f = [] ∧ ∃ d, data1 = some d ∧ Form.get d f = none) := by
  have has := Ruler.AsRules_unchecked reg src fields0 hsrc hfields
  have hflag : ∀ e ∈ fields0, e.1 = f →
      (Field.check reg e.2).1.isNullable = false ∧ (Field.check reg e.2).1.isRequired = false := by
    intro e he hef
    have hp := hplain e he hef
    constructor
    · cases hb : (Field.check reg e.2).1.isNullable with
      | false => rfl
      | true =>
        obtain ⟨rule, hr, hname⟩ := (Field.check_isNullable reg e.2).mp hb
        exact absurd hname (hp rule hr).2
    · cases hb : (Field.check reg e.2).1.isRequired with
      | false => rfl
      | true =>
        obtain ⟨rule, hr, hname, _⟩ := (Field.check_isRequired reg e.2).mp hb
        exact absurd hname (hp rule hr).1
  refine ⟨?_, ?_⟩
  · intro fld hone hlegal
    subst hone
    obtain ⟨hnul, hreq⟩ := hflag (f, fld) (List.mem_singleton_self _) rfl
    have hcheck : Rules.check reg ⟨[(f, fld)], false⟩
        = some ⟨[(f, (Field.check reg fld).1)], true⟩ := by
      simp [Rules.check, hlegal]
    refine ⟨?_, Form.get_delete_same data f⟩
    simp only [Validate, has, hcheck, validate,
      validateField_plain_nil reg format isJSON language f _ [] data hnil hnul hreq]
  · intro hframe errors1 data1 h
    simp only [Validate, has] at h
    cases hc : Rules.check reg ⟨fields0, false⟩ with
    | none => simp [hc] at h
    | some checked =>
      simp only [hc] at h
      cases hv : validate reg format isJSON language checked.Fields [] data with
      | none => simp [hv] at h
      | some res =>
        obtain ⟨e1, d1⟩ := res
        simp only [hv, Option.some.injEq, Prod.mk.injEq] at h
        obtain ⟨h1, h2⟩ := h
        subst h1 h2
        have hfs := Rules.check_fields reg fields0 checked hc
        have hflags : ∀ e ∈ checked.Fields, e.1 = f →
            e.2.isNullable = false ∧ e.2.isRequired = false := by
          rw [hfs]
          intro e he hef
          rw [List.mem_map] at he
          obtain ⟨e0, he0, rfl⟩ := he
          exact hflag e0 he0 hef
        have hmem1 : ∃ fld, (f, fld) ∈ checked.Fields := by
          obtain ⟨fld, hm⟩ := hmem
          rw [hfs]
          exact ⟨(Field.check reg fld).1, List.mem_map.mpr ⟨(f, fld), hm, rfl⟩⟩
        obtain ⟨r1, r2⟩ := validate_plain_nil reg format isJSON language hframe f
          checked.Fields hflags [] data e1 d1 (Or.inr ⟨hnil, hmem1⟩) hv
        exact ⟨by rw [r1]; rfl, d1, rfl, r2⟩

/-- C13, witness: the payload `{nullField: nil}` with the rule `numeric`. -/
theorem Validate_plain_nil_witness :
    Form.get [("nullField", Value.nil)] "nullField" = some Value.nil
    ∧ Validate sampleRegistry sampleFormat (some [("nullField", Value.nil)])
        (Ruler.ruleSet [("nullField", ["numeric"])]) true "en-US"
      = some ([], some [])
    ∧ Form.get [] "nullField" = none :=
  have h := (Validate_plain_nil sampleRegistry sampleFormat true "en-US"
      (Ruler.ruleSet [("nullField", ["numeric"])])
      [("nullField", ⟨[⟨"numeric", [], 0⟩], false, false, false⟩)]
      [("nullField", Value.nil)] "nullField" rfl (by decide) (by decide)
      ⟨_, List.mem_singleton_self _⟩ (by decide)).1 _ rfl (by decide)
  ⟨by decide, h.1, rfl⟩

/-- C14: on a nil payload `Validate` returns the single entry `error`, with the message
`Malformed request` for a request that is not JSON and `Malformed JSON` for a JSON one,
whatever the registry, the formatter, the rule source and the locale are; no rule is
looked up or evaluated, and a rule source that would not pass the check changes nothing. -/
theorem Validate_nil_payload (reg : Registry) (format : Formatter) (rules : Ruler)
    (language : String) :
    Validate reg format none rules false language
        = some ([("error", ["Malformed request"])], none)
    ∧ Validate reg format none rules true language
        = some ([("error", ["Malformed JSON"])], none) :=
  ⟨rfl, rfl⟩

/-- C15: after `Field.check` the flag `isRequired` is set exactly when a rule named
`required` is present at dimension 0, `isArray` exactly when a rule named `array` is
present at dimension 0 and `isNullable` exactly when a rule named `nullable` is present;
the rules are untouched, and the call returns when every rule is registered and none that
is not array-comparable carries a dimension above zero. -/
theorem Field_check_flags (reg : Registry) (f : Field) :
    ((Field.check reg f).1.isRequired = true
        ↔ ∃ r ∈ f.Rules, r.Name = "required" ∧ r.ArrayDimension = 0)
    ∧ ((Field.check reg f).1.isArray = true
        ↔ ∃ r ∈ f.Rules, r.Name = "array" ∧ r.ArrayDimension = 0)
    ∧ ((Field.check reg f).1.isNullable = true ↔ ∃ r ∈ f.Rules, r.Name = "nullable")
    ∧ (Field.check reg f).1.Rules = f.Rules
    ∧ ((∀ r ∈ f.Rules, ∃ d, reg.get r.Name = some d
          ∧ (d.IsArrayComparable = true ∨ r.ArrayDimension = 0))
        → (Field.check reg f).2 = true) := by
  refine ⟨?_, ?_, ?_, rfl, ?_⟩
  · simp [Field.check]
  · simp [Field.check]
  · simp [Field.check]
  · intro h
    simp only [Field.check, List.all_eq_true]
    intro r hr
    obtain ⟨d, hd, hok⟩ := h r hr
    simp only [hd]
    rcases hok with hok | hok <;> simp [hok]

/-- C16: when a field holds a rule whose name is not registered, `Field.check` is fatal, and
so is `Rules.AsRules` on an unchecked rule tree that holds the field; `RuleSet.parse` and
`RuleSet.AsRules` are fatal on a rule set with an expression that is malformed or whose
rule name is not registered. -/
theorem unregistered_rule_aborts (reg : Registry) (f : Field) (r : Rule) (hr : r ∈ f.Rules)
    (hreg : reg.get r.Name = none) :
    (Field.check reg f).2 = false
    ∧ (∀ (rules : Rules) (name : String), rules.checked = false → (name, f) ∈ rules.Fields →
        Rules.AsRules reg rules = none)
    ∧ (∀ (set : RuleSet) (name : String) (tokens : List String) (token : String),
        (name, tokens) ∈ set → token ∈ tokens →
        (∀ r1, parseRule token = some r1 → reg.get r1.Name = none) →
        RuleSet.parse reg set = none ∧ RuleSet.AsRules reg set = none) := by
  have hf : (Field.check reg f).2 = false :=
    Field.check_fatal_rule reg f r hr (fun d hd => by rw [hreg] at hd; cases hd)
  refine ⟨hf, ?_, ?_⟩
  · intro rules name hc hm
    exact Rules.check_fatal_field reg rules name f hc hm hf
  · intro set name tokens token hm ht hun
    have hparse : RuleSet.parse reg set = none := by
      simp only [RuleSet.parse]
      cases hp : parseFields set with
      | none => rfl
      | some fields =>
        obtain ⟨rs, h1, h2⟩ := parseFields_mem set fields hp name tokens hm
        obtain ⟨r1, hr1, hp1⟩ := parseRules_mem tokens rs h1 token ht
        exact Rules.check_fatal_field reg _ name _ rfl h2
          (Field.check_fatal_rule reg _ r1 hr1 (fun d hd => by rw [hun r1 hp1] at hd; cases hd))
    exact ⟨hparse, hparse⟩

/-- C16, witness: the rule name `not a rule` of the tests, in a field, in a rule tree and in
a rule set, and the well-formed but unregistered name `unknown_rule` in a rule set. -/
theorem unregistered_rule_aborts_witness :
    (⟨"not a rule", [], 0⟩ : Rule) ∈ [(⟨"required", [], 0⟩ : Rule), ⟨"not a rule", [], 0⟩]
    ∧ sampleRegistry.get "not a rule" = none
    ∧ (Field.check sampleRegistry
        ⟨[⟨"required", [], 0⟩, ⟨"not a rule", [], 0⟩], false, false, false⟩).2 = false
    ∧ Rules.AsRules sampleRegistry
        ⟨[("values", ⟨[⟨"required", [], 0⟩, ⟨"not a rule", [], 0⟩], false, false, false⟩)], false⟩
        = none
    ∧ RuleSet.parse sampleRegistry [("string", ["required", "not a rule", ">min:3"])] = none
    ∧ RuleSet.parse sampleRegistry [("string", ["required", "unknown_rule", ">min:3"])] = none :=
  have h := unregistered_rule_aborts sampleRegistry
    ⟨[⟨"required", [], 0⟩, ⟨"not a rule", [], 0⟩], false, false, false⟩ ⟨"not a rule", [], 0⟩
    (by decide) rfl
  have h1 : parseRule "not a rule" = none := by decide
  have h2 : parseRule "unknown_rule" = some ⟨"unknown_rule", [], 0⟩ := by decide
  ⟨by decide, rfl, h.1, h.2.1 _ "values" rfl (by decide),
    (h.2.2 [("string", ["required", "not a rule", ">min:3"])] "string"
      ["required", "not a rule", ">min:3"] "not a rule" (by decide) (by decide)
      (fun r1 hr1 => by rw [h1] at hr1; cases hr1)).1,
    (h.2.2 [("string", ["required", "unknown_rule", ">min:3"])] "string"
      ["required", "unknown_rule", ">min:3"] "unknown_rule" (by decide) (by decide)
      (fun r1 hr1 => by rw [h2] at hr1; cases hr1; rfl)).1⟩

/-- C17: when a field holds a rule that is registered as not array-comparable and carries
a dimension above zero, `Field.check` is fatal. -/
theorem array_incompatible_rule_aborts (reg : Registry) (f : Field) (r : Rule)
    (d : RuleDefinition) (hr : r ∈ f.Rules) (hdim : 0 < r.ArrayDimension)
    (hd : reg.get r.Name = some d) (hflag : d.IsArrayComparable = false) :
    (Field.check reg f).2 = false :=
  Field.check_fatal_rule reg f r hr (fun d1 hd1 => by
    rw [hd] at hd1
    cases hd1
    exact ⟨hflag, hdim⟩)

/-- C17, witness: the rule `confirmed` at dimension 1, and each of the nine rule names that
the tests list, in the sample registry. -/
theorem array_incompatible_rule_aborts_witness :
    (sampleRegistry.get "confirmed").map RuleDefinition.IsArrayComparable = some false
    ∧ (Field.check sampleRegistry ⟨[⟨"confirmed", [], 1⟩], false, false, false⟩).2 = false
    ∧ ∀ name ∈ ["confirmed", "file", "mime", "image", "extension", "count", "count_min",
        "count_max", "count_between"],
        (Field.check sampleRegistry ⟨[⟨name, [], 1⟩], false, false, false⟩).2 = false :=
  ⟨by decide,
   array_incompatible_rule_aborts sampleRegistry ⟨[⟨"confirmed", [], 1⟩], false, false, false⟩
     ⟨"confirmed", [], 1⟩ ⟨acceptAll, false, false⟩ (by decide) (by decide) rfl rfl,
   by decide⟩

/-- C18: after a `Rules.check` that returned, the latch `checked` is set, and `Rules.check`
on the instance returns it as it is, whatever its fields have become and whatever the
registry holds. -/
theorem Rules_check_latch (reg : Registry) (rules checked : Rules)
    (h : Rules.check reg rules = some checked) :
    checked.checked = true
    ∧ ∀ (reg1 : Registry) (fields : FieldMap),
        Rules.check reg1 ⟨fields, checked.checked⟩ = some ⟨fields, checked.checked⟩ := by
  have hc : checked.checked = true := by
    unfold Rules.check at h
    split at h
    · rename_i hcheck
      cases h
      exact hcheck
    · split at h
      · cases h
        rfl
      · cases h
  refine ⟨hc, ?_⟩
  intro reg1 fields
  simp [Rules.check, hc]

/-- C18, witness: the rule tree of `TestRulesCheck`, checked, then checked again after its
first rule was renamed to `not a rule`. -/
theorem Rules_check_latch_witness :
    Rules.check sampleRegistry
        ⟨[("values", ⟨[⟨"required", [], 0⟩, ⟨"array", [], 0⟩, ⟨"array", [], 1⟩,
          ⟨"array", ["numeric"], 2⟩, ⟨"max", ["3"], 1⟩, ⟨"max", ["4"], 3⟩],
          false, false, false⟩)], false⟩
      = some ⟨[("values", ⟨[⟨"required", [], 0⟩, ⟨"array", [], 0⟩, ⟨"array", [], 1⟩,
          ⟨"array", ["numeric"], 2⟩, ⟨"max", ["3"], 1⟩, ⟨"max", ["4"], 3⟩],
          true, true, false⟩)], true⟩
    ∧ Rules.check sampleRegistry
        ⟨[("values", ⟨[⟨"not a rule", [], 0⟩, ⟨"array", [], 0⟩, ⟨"array", [], 1⟩,
          ⟨"array", ["numeric"], 2⟩, ⟨"max", ["3"], 1⟩, ⟨"max", ["4"], 3⟩],
          true, true, false⟩)], true⟩
      = some ⟨[("values", ⟨[⟨"not a rule", [], 0⟩, ⟨"array", [], 0⟩, ⟨"array", [], 1⟩,
          ⟨"array", ["numeric"], 2⟩, ⟨"max", ["3"], 1⟩, ⟨"max", ["4"], 3⟩],
          true, true, false⟩)], true⟩ :=
  have h0 : Rules.check sampleRegistry
        ⟨[("values", ⟨[⟨"required", [], 0⟩, ⟨"array", [], 0⟩, ⟨"array", [], 1⟩,
          ⟨"array", ["numeric"], 2⟩, ⟨"max", ["3"], 1⟩, ⟨"max", ["4"], 3⟩],
          false, false, false⟩)], false⟩
      = some ⟨[("values", ⟨[⟨"required", [], 0⟩, ⟨"array", [], 0⟩, ⟨"array", [], 1⟩,
          ⟨"array", ["numeric"], 2⟩, ⟨"max", ["3"], 1⟩, ⟨"max", ["4"], 3⟩],
          true, true, false⟩)], true⟩ := by decide
  ⟨h0, (Rules_check_latch sampleRegistry _ _ h0).2 sampleRegistry _⟩

/-- C19: when a field holds an array without elements, every registered rule of a
dimension above zero passes on it without an error and leaves the payload as it is; and
`Validate` with a rule tree of this field whose rules all carry a dimension above zero
and pass the check returns no error. -/
theorem empty_array_rule_passes (reg : Registry) (format : Formatter) (language : String)
    (f : String) (data : Form) (ty : String)
    (hval : Form.get data f = some (Value.slice ty []))
    (harr : getFieldType (Value.slice ty []) = "array") :
    (∀ (rule : Rule) (definition : RuleDefinition), reg.get rule.Name = some definition →
        0 < rule.ArrayDimension →
        validateRule reg format language f rule data = some (none, data)
        ∧ ∀ errors, validateRules reg format language f [rule] errors data
            = some (errors, data))
    ∧ (∀ (isJSON : Bool) (fld : Field), (∀ r ∈ fld.Rules, 0 < r.ArrayDimension) →
        (Field.check reg fld).2 = true →
        Validate reg format (some data) (Ruler.rules ⟨[(f, fld)], false⟩) isJSON language
          = some ([], some data)) := by
  refine ⟨?_, ?_⟩
  · intro rule definition hreg hdim
    have h := validateRule_empty_array reg format language f rule definition data ty hreg hdim
      hval harr
    exact ⟨h, fun errors => by simp only [validateRules, h]⟩
  · intro isJSON fld hpos hlegal
    have hcheck : Rules.check reg ⟨[(f, fld)], false⟩
        = some ⟨[(f, (Field.check reg fld).1)], true⟩ := by
      simp [Rules.check, hlegal]
    have hconv : convertArray isJSON f (Field.check reg fld).1 data = data := by
      simp [convertArray, hval, Value.kind]
    have hrules := validateRules_empty_array reg format language f data ty hval harr fld.Rules
      (fun r hr => ⟨hpos r hr, Field.check_registered reg fld hlegal r hr⟩) []
    have hfield : validateField reg format isJSON language f (Field.check reg fld).1 [] data
        = some ([], data) := by
      simp only [validateField, hval, reduceCtorEq, if_false, hconv]
      exact hrules
    simp only [Validate, Ruler.AsRules, Rules.AsRules, hcheck, validate, hfield]

/-- C19, witness: the payload `{string: []}` with the rules `array` and `>uuid:5`, where
`uuid` rejects every value. -/
theorem empty_array_rule_passes_witness :
    Form.get [("string", Value.slice "[]string" [])] "string" = some (Value.slice "[]string" [])
    ∧ getFieldType (Value.slice "[]string" []) = "array"
    ∧ validateRule sampleRegistry sampleFormat "en-US" "string" ⟨"uuid", ["5"], 1⟩
        [("string", Value.slice "[]string" [])]
      = some (none, [("string", Value.slice "[]string" [])])
    ∧ Validate sampleRegistry sampleFormat (some [("string", Value.slice "[]string" [])])
        (Ruler.ruleSet [("string", ["array", ">uuid:5"])]) true "en-US"
      = some ([], some [("string", Value.slice "[]string" [])]) :=
  ⟨by decide, by decide,
   ((empty_array_rule_passes sampleRegistry sampleFormat "en-US" "string"
      [("string", Value.slice "[]string" [])] "[]string" (by decide) (by decide)).1
      ⟨"uuid", ["5"], 1⟩ ⟨rejectAll, false, true⟩ rfl (by decide)).1,
   by decide⟩

/-- C21: evaluation of `Validate` on the payload of `TestValidateTwoDimensionalArray`,
`{values: [["0.5", 1.42], [0.6, 7]]}`, with the rules `required`, `array` and
`>array:numeric`: no error, and the payload is the one it was given, still an array of
arrays of `interface{}` whose first leaf is the string `0.5` and whose last is the int 7.
The rule `>array:numeric` is `validateArray` with the parameter `numeric` on each inner
array; `validateArray` does not read its parameter, and `validateNumeric` leaves an int as
it is. -/
theorem Validate_array_numeric_not_coerced :
    Validate sampleRegistry sampleFormat
        (some [("values", Value.slice "[][]interface {}"
          [Value.slice "[]interface {}"
            [Value.string "0.5", Value.float64 (.fin false 6395111470866104 (-52))],
           Value.slice "[]interface {}"
            [Value.float64 (.fin false 5404319552844595 (-53)), Value.int IntType.int 7]])])
        (Ruler.ruleSet [("values", ["required", "array", ">array:numeric"])]) false "en-US"
      = some ([], some [("values", Value.slice "[][]interface {}"
          [Value.slice "[]interface {}"
            [Value.string "0.5", Value.float64 (.fin false 6395111470866104 (-52))],
           Value.slice "[]interface {}"
            [Value.float64 (.fin false 5404319552844595 (-53)), Value.int IntType.int 7]])])
    ∧ parseRule ">array:numeric" = some ⟨"array", ["numeric"], 1⟩
    ∧ validateArray "values"
        (Value.slice "[]interface {}"
          [Value.string "0.5", Value.float64 (.fin false 6395111470866104 (-52))])
        ["numeric"]
        [("values", Value.slice "[]interface {}"
          [Value.string "0.5", Value.float64 (.fin false 6395111470866104 (-52))])]
      = some (true, [("values", Value.slice "[]interface {}"
          [Value.string "0.5", Value.float64 (.fin false 6395111470866104 (-52))])])
    ∧ validateNumeric exampleLib "values" (Value.int IntType.int 7) []
        [("values", Value.int IntType.int 7)]
      = some (true, [("values", Value.int IntType.int 7)]) := by
  decide

/-- C23: on a string value `validateInteger` always returns; it returns true exactly when
`strconv.Atoi` accepts the string, the payload then maps `field` to that int, and when it
returns false the payload is the one it was given. -/
theorem validateInteger_string (lib : Lib) (field s : String) (parameters : List String)
    (form : Form) :
    ∃ b form1, validateInteger lib field (Value.string s) parameters form = some (b, form1) ∧
      (b = true ↔ ∃ n, lib.atoi s = some n) ∧
      (∀ n, lib.atoi s = some n → Form.get form1 field = some (Value.int IntType.int n)) ∧
      (b = false → form1 = form) := by
  have hk : validateInteger lib field (Value.string s) parameters form =
      match lib.atoi s with
      | some intVal => some (true, Form.set form field (.int .int intVal))
      | none => some (false, form) := by
    rfl
  rw [hk]
  cases hp : lib.atoi s with
  | none => exact ⟨false, form, rfl, by simp, by simp, fun _ => rfl⟩
  | some n =>
    refine ⟨true, Form.set form field (.int .int n), rfl, by simp, ?_, by simp⟩
    intro m hm
    cases hm
    exact Form.get_set_same form field (.int .int n)

/-- C24: when both bounds parse, `validateMin` on the first bound, `validateMax` on the
second and `validateBetween` on both return, and the verdict of `validateBetween` is the
conjunction of the two others, for every value. -/
theorem validateBetween_eq_min_and_max (lib : Lib) (field : String) (value : Value)
    (a b : String) (form : Form) (pa pb : GoFloat)
    (ha : lib.parseFloat a = some pa) (hb : lib.parseFloat b = some pb) :
    ∃ rmin rmax, validateMin lib field value [a] form = some (rmin, form)
      ∧ validateMax lib field value [b] form = some (rmax, form)
      ∧ validateBetween lib field value [a, b] form = some (rmin && rmax, form) :=
  min_max_between_results lib field value a b [] [] [] form pa pb ha hb

/-- C24, witness: the bounds 3 and 5 on the string `abcd`, which passes, and on `ab`, which
fails. -/
theorem validateBetween_eq_min_and_max_witness :
    exampleLib.parseFloat "3" = some (.fin false 3 0)
    ∧ exampleLib.parseFloat "5" = some (.fin false 5 0)
    ∧ (∃ rmin rmax, validateMin exampleLib "f" (Value.string "abcd") ["3"] [] = some (rmin, [])
        ∧ validateMax exampleLib "f" (Value.string "abcd") ["5"] [] = some (rmax, [])
        ∧ validateBetween exampleLib "f" (Value.string "abcd") ["3", "5"] []
          = some (rmin && rmax, []))
    ∧ validateBetween exampleLib "f" (Value.string "abcd") ["3", "5"] [] = some (true, [])
    ∧ validateBetween exampleLib "f" (Value.string "ab") ["3", "5"] [] = some (false, []) :=
  ⟨by decide, by decide,
   validateBetween_eq_min_and_max exampleLib "f" (Value.string "abcd") "3" "5" []
     (.fin false 3 0) (.fin false 5 0) (by decide) (by decide),
   by decide, by decide⟩

/-- C25: with a first parameter, `validateMin` and `validateMax` panic exactly when it does
not parse, and with two parameters `validateBetween` panics exactly when one of them does
not parse, for every value. -/
theorem bounds_abort_iff (lib : Lib) (field : String) (value : Value) (form : Form) :
    (∀ p0 rest, validateMin lib field value (p0 :: rest) form = none
        ↔ lib.parseFloat p0 = none)
    ∧ (∀ p0 rest, validateMax lib field value (p0 :: rest) form = none
        ↔ lib.parseFloat p0 = none)
    ∧ (∀ a b rest, validateBetween lib field value (a :: b :: rest) form = none
        ↔ (lib.parseFloat a = none ∨ lib.parseFloat b = none)) := by
  refine ⟨?_, ?_, ?_⟩
  · intro p0 rest
    cases hp : lib.parseFloat p0 with
    | none => simp [validateMin, hp]
    | some p =>
      obtain ⟨rmin, _, h, _, _⟩ :=
        min_max_between_results lib field value p0 p0 rest [] [] form p p hp hp
      simp [h]
  · intro p0 rest
    cases hp : lib.parseFloat p0 with
    | none => simp [validateMax, hp]
    | some p =>
      obtain ⟨_, rmax, _, h, _⟩ :=
        min_max_between_results lib field value p0 p0 [] rest [] form p p hp hp
      simp [h]
  · intro a b rest
    cases ha : lib.parseFloat a with
    | none => simp [validateBetween, ha]
    | some pa =>
      cases hb : lib.parseFloat b with
      | none => simp [validateBetween, ha, hb]
      | some pb =>
        obtain ⟨_, _, _, _, h⟩ :=
          min_max_between_results lib field value a b [] [] rest form pa pb ha hb
        simp [h]

/-- C26: whenever they return, `validateRequired`, `validateMin`, `validateMax`,
`validateBetween`, the four cross-field rules, `validateString`, `validateArray` and
`validateDistinct` return the payload they were given; `validateNumeric` and
`validateInteger` leave every entry under another key than `field` as it was, and return
the payload they were given when they return false. -/
theorem payload_frame (lib : Lib) (field : String) (value : Value) (params : List String)
    (form : Form) (b : Bool) (form1 : Form) :
    (validateRequired field value params form = some (b, form1) → form1 = form)
    ∧ (validateMin lib field value params form = some (b, form1) → form1 = form)
    ∧ (validateMax lib field value params form = some (b, form1) → form1 = form)
    ∧ (validateBetween lib field value params form = some (b, form1) → form1 = form)
    ∧ (validateGreaterThan lib field value params form = some (b, form1) → form1 = form)
    ∧ (validateGreaterThanEqual lib field value params form = some (b, form1) → form1 = form)
    ∧ (validateLowerThan lib field value params form = some (b, form1) → form1 = form)
    ∧ (validateLowerThanEqual lib field value params form = some (b, form1) → form1 = form)
    ∧ (validateString field value params form = some (b, form1) → form1 = form)
    ∧ (validateArray field value params form = some (b, form1) → form1 = form)
    ∧ (validateDistinct lib field value params form = some (b, form1) → form1 = form)
    ∧ (validateNumeric lib field value params form = some (b, form1) →
        (∀ key, key ≠ field → Form.get form1 key = Form.get form key)
        ∧ (b = false → form1 = form))
    ∧ (validateInteger lib field value params form = some (b, form1) →
        (∀ key, key ≠ field → Form.get form1 key = Form.get form key)
        ∧ (b = false → form1 = form)) :=
  ⟨validateRequired_unchanged field value params form b form1,
   validateMin_unchanged lib field value params form b form1,
   validateMax_unchanged lib field value params form b form1,
   validateBetween_unchanged lib field value params form b form1,
   compareFields_unchanged lib _ _ field value params form b form1,
   compareFields_unchanged lib _ _ field value params form b form1,
   compareFields_unchanged lib _ _ field value params form b form1,
   compareFields_unchanged lib _ _ field value params form b form1,
   validateString_unchanged field value params form b form1,
   validateArray_unchanged field value params form b form1,
   validateDistinct_unchanged lib field value params form b form1,
   fun h => ⟨validateNumeric_framed lib field value params form b form1 h,
     fun hb => validateNumeric_false_unchanged lib field value params form form1 (hb ▸ h)⟩,
   fun h => ⟨validateInteger_framed lib field value params form b form1 h,
     fun hb => validateInteger_false_unchanged lib field value params form form1 (hb ▸ h)⟩⟩

/-- C27: when the compared field is in the payload and the subject and the compared value
are both strings or both arrays, the four cross-field rules return, `validateGreaterThan`
is the negation of `validateLowerThanEqual` and `validateLowerThan` the negation of
`validateGreaterThanEqual`; when the compared field is missing or classified differently
all four return false. -/
theorem comparators_negation (lib : Lib) (field : String) (value : Value) (p0 : String)
    (rest : List String) (form : Form) :
    (∀ compared, Form.get form p0 = some compared →
        ((getFieldType value = "string" ∧ getFieldType compared = "string")
          ∨ (getFieldType value = "array" ∧ getFieldType compared = "array")) →
        ∃ gt ge lt le,
          validateGreaterThan lib field value (p0 :: rest) form = some (gt, form)
          ∧ validateGreaterThanEqual lib field value (p0 :: rest) form = some (ge, form)
          ∧ validateLowerThan lib field value (p0 :: rest) form = some (lt, form)
          ∧ validateLowerThanEqual lib field value (p0 :: rest) form = some (le, form)
          ∧ gt = !le ∧ lt = !ge)
    ∧ ((Form.get form p0 = none
          ∨ ∃ c, Form.get form p0 = some c ∧ getFieldType c ≠ getFieldType value) →
        validateGreaterThan lib field value (p0 :: rest) form = some (false, form)
        ∧ validateGreaterThanEqual lib field value (p0 :: rest) form = some (false, form)
        ∧ validateLowerThan lib field value (p0 :: rest) form = some (false, form)
        ∧ validateLowerThanEqual lib field value (p0 :: rest) form = some (false, form)) := by
  refine ⟨?_, ?_⟩
  · intro compared hc hboth
    rcases hboth with ⟨h1, h2⟩ | ⟨h1, h2⟩
    · obtain ⟨a, rfl⟩ := getFieldType_string value h1
      obtain ⟨c, rfl⟩ := getFieldType_string compared h2
      refine ⟨decide (strLen a > strLen c), decide (strLen a ≥ strLen c),
        decide (strLen a < strLen c), decide (strLen a ≤ strLen c),
        (compareFields_lengths lib _ _ field _ _ p0 rest form hc).1 a c rfl rfl,
        (compareFields_lengths lib _ _ field _ _ p0 rest form hc).1 a c rfl rfl,
        (compareFields_lengths lib _ _ field _ _ p0 rest form hc).1 a c rfl rfl,
        (compareFields_lengths lib _ _ field _ _ p0 rest form hc).1 a c rfl rfl, ?_, ?_⟩
      · rw [← decide_not]; simp
      · rw [← decide_not]; simp
    · obtain ⟨ta, xs, rfl⟩ := getFieldType_array value h1
      obtain ⟨tc, ys, rfl⟩ := getFieldType_array compared h2
      refine ⟨decide (xs.length > ys.length), decide (xs.length ≥ ys.length),
        decide (xs.length < ys.length), decide (xs.length ≤ ys.length),
        (compareFields_lengths lib _ _ field _ _ p0 rest form hc).2 ta xs tc ys rfl rfl h1 h2,
        (compareFields_lengths lib _ _ field _ _ p0 rest form hc).2 ta xs tc ys rfl rfl h1 h2,
        (compareFields_lengths lib _ _ field _ _ p0 rest form hc).2 ta xs tc ys rfl rfl h1 h2,
        (compareFields_lengths lib _ _ field _ _ p0 rest form hc).2 ta xs tc ys rfl rfl h1 h2,
        ?_, ?_⟩
      · rw [← decide_not]; simp
      · rw [← decide_not]; simp
  · intro h
    exact ⟨compareFields_missing_or_mismatch lib _ _ field value p0 rest form h,
      compareFields_missing_or_mismatch lib _ _ field value p0 rest form h,
      compareFields_missing_or_mismatch lib _ _ field value p0 rest form h,
      compareFields_missing_or_mismatch lib _ _ field value p0 rest form h⟩

/-- C27, witness: the string `abc` compared with the string `x`. -/
theorem comparators_negation_witness :
    Form.get [("a", Value.string "abc"), ("b", Value.string "x")] "b" = some (Value.string "x")
    ∧ validateGreaterThan exampleLib "a" (Value.string "abc") ["b"]
        [("a", Value.string "abc"), ("b", Value.string "x")]
      = some (true, [("a", Value.string "abc"), ("b", Value.string "x")])
    ∧ validateLowerThanEqual exampleLib "a" (Value.string "abc") ["b"]
        [("a", Value.string "abc"), ("b", Value.string "x")]
      = some (false, [("a", Value.string "abc"), ("b", Value.string "x")])
    ∧ (∃ gt ge lt le,
        validateGreaterThan exampleLib "a" (Value.string "abc") ["b"]
            [("a", Value.string "abc"), ("b", Value.string "x")]
          = some (gt, [("a", Value.string "abc"), ("b", Value.string "x")])
        ∧ validateGreaterThanEqual exampleLib "a" (Value.string "abc") ["b"]
            [("a", Value.string "abc"), ("b", Value.string "x")]
          = some (ge, [("a", Value.string "abc"), ("b", Value.string "x")])
        ∧ validateLowerThan exampleLib "a" (Value.string "abc") ["b"]
            [("a", Value.string "abc"), ("b", Value.string "x")]
          = some (lt, [("a", Value.string "abc"), ("b", Value.string "x")])
        ∧ validateLowerThanEqual exampleLib "a" (Value.string "abc") ["b"]
            [("a", Value.string "abc"), ("b", Value.string "x")]
          = some (le, [("a", Value.string "abc"), ("b", Value.string "x")])
        ∧ gt = !le ∧ lt = !ge) :=
  ⟨by decide, by decide, by decide,
   (comparators_negation exampleLib "a" (Value.string "abc") "b" []
      [("a", Value.string "abc"), ("b", Value.string "x")]).1 (Value.string "x") (by decide)
      (Or.inl ⟨by decide, by decide⟩)⟩

end Validation
